import Mathlib

/-!
# hello-go: batch fetcher and statistics calculator

Shallow embedding of `src/main.go`:

* `getRandomSets` (lines 66-92), a fan-out over goroutines, is a transition
  system. One `Action` is one atomic source step of the main goroutine, of a
  worker goroutine, or of the environment (the parent context being cancelled);
  a schedule is a list of actions and `run` replays it.
* `getRandomsFromRandomOrg` (lines 35-64) performs a network call; its result is
  an input of the model (`Config.getRandomsFromRandomOrg`), and a call whose
  context is cancelled may instead return the cancellation error
  (`Action.abort`).
* `stdDev` (lines 94-108) and `calculateResults` (lines 110-122) are functions
  on lists. `int` is the 64-bit integer of Go with wrap-around and `float64`
  is IEEE 754 binary64 (`F64`), computed exactly with integers.
-/

namespace HelloGo

/-! ## getRandomSets: data -/

/-- The errors `getRandomsFromRandomOrg` returns on its own account, one per
`return nil, ...` of lines 38-60: the missing API key (38), a request that
cannot be built (45), a failed round trip (50), a body that does not decode
(57), and an error reported by random.org (60). -/
inductive CallErr
  | missingKey
  | request
  | transport (msg : String)
  | decode
  | upstream (code : Int) (message : String)
  deriving DecidableEq, Repr

/-- The `error` values a goroutine can hold: an error of the call itself, or
the error with which `http.DefaultClient.Do` (line 50) or the body decoder
(line 57) gives up because the request context is cancelled. -/
inductive FetchErr
  | call (e : CallErr)
  | canceled
  deriving DecidableEq, Repr

/-- Result of one call of `getRandomsFromRandomOrg` that is not aborted:
`(data, nil)` or `(nil, err)` with `err != nil`. -/
inductive Outcome
  | ok (data : List Int)
  | fail (e : CallErr)
  deriving DecidableEq, Repr

/-- Inputs of `getRandomSets`: `setsCount`, `setSize`, whether the parent
context is already cancelled at the call, and what the network call of the
goroutine with a given id returns when it is not aborted. A negative
`setsCount` makes `make(chan error, setsCount)` panic and is not modelled. -/
structure Config where
  setsCount : Nat
  setSize : Int
  parentDone : Bool
  getRandomsFromRandomOrg : Nat → Int → Outcome

/-- Program counter of the goroutine launched on line 74. -/
inductive TaskPc
  /-- not launched yet -/
  | idle
  /-- inside the call of line 76 -/
  | fetching
  /-- line 77 found `err != nil`; next is the send of line 78 -/
  | failed (e : FetchErr)
  /-- line 78 done; next is `cancel()` of line 79 -/
  | sent (e : FetchErr)
  /-- line 79 done; next is the deferred `wg.Done()` -/
  | cancelled (e : FetchErr)
  /-- line 77 found `err == nil`; next is the slot write of line 82 -/
  | fetched (r : List Int)
  /-- line 82 done; next is the deferred `wg.Done()` -/
  | stored (r : List Int)
  /-- returned after a failed fetch -/
  | doneErr (e : FetchErr)
  /-- returned after a successful fetch -/
  | doneOk (r : List Int)
  deriving DecidableEq, Repr

/-- Program counter of the goroutine running `getRandomSets`. -/
inductive MainPc
  /-- in the loop of line 72 with loop variable `i` -/
  | loop (i : Nat)
  /-- `wg.Wait()` of line 86 has returned -/
  | waited
  /-- line 88 found `ctx.Err() != nil`; next is the receive of line 89 -/
  | receiving
  /-- the function has returned `(sets, err)`; `none` is `nil` -/
  | returned (sets : Option (List (List Int))) (err : Option FetchErr)
  deriving DecidableEq, Repr

/-- State of one call of `getRandomSets`. `errorsChannel` is the buffer of
the channel (oldest first), `ctxDone` says whether the derived context of
line 68 is cancelled, `sets` is the slice of line 71 (a nil slot is `[]`) and
`wg` the counter of the wait group. -/
structure State where
  main : MainPc
  tasks : List TaskPc
  errorsChannel : List FetchErr
  ctxDone : Bool
  parentDone : Bool
  sets : List (List Int)
  wg : Nat
  deriving DecidableEq, Repr

/-- One atomic step. -/
inductive Action
  /-- main, lines 72-74: `i < setsCount`, `wg.Add(1)`, `go func(i)`, `i++` -/
  | spawn
  /-- goroutine `id`, line 76: the call returns its own outcome -/
  | fetch (id : Nat)
  /-- goroutine `id`, line 76: the call is aborted because `ctx` is cancelled -/
  | abort (id : Nat)
  /-- goroutine `id`, line 78 -/
  | send (id : Nat)
  /-- goroutine `id`, line 79 -/
  | cancel (id : Nat)
  /-- goroutine `id`, line 82 -/
  | store (id : Nat)
  /-- goroutine `id`, deferred `wg.Done()` of line 75 -/
  | done (id : Nat)
  /-- main, line 86: the loop is over and the counter is zero -/
  | wait
  /-- main, lines 88 and 91 -/
  | check
  /-- main, line 89 -/
  | recv
  /-- environment: the parent context is cancelled -/
  | parentCancel
  deriving DecidableEq, Repr

/-! ## getRandomSets: steps -/

/-- State after lines 67-71. `context.WithCancel` of a cancelled parent returns
a context that is already cancelled. -/
def init (cfg : Config) : State :=
  { main := MainPc.loop 0
    tasks := List.replicate cfg.setsCount TaskPc.idle
    errorsChannel := []
    ctxDone := cfg.parentDone
    parentDone := cfg.parentDone
    sets := List.replicate cfg.setsCount []
    wg := 0 }

/-- Whether `getRandomSets` has returned. -/
def MainPc.isReturned : MainPc → Bool
  | MainPc.loop _ => false
  | MainPc.waited => false
  | MainPc.receiving => false
  | MainPc.returned _ _ => true

/-- The step `a` from `s`, or `none` when `a` is not enabled in `s` (the
goroutine is elsewhere, or it blocks). -/
def step (cfg : Config) (s : State) : Action → Option State
  | Action.spawn =>
    match s.main with
    | MainPc.loop i =>
      if i < cfg.setsCount then
        some { s with main := MainPc.loop (i + 1), wg := s.wg + 1,
                      tasks := s.tasks.set i TaskPc.fetching }
      else none
    | _ => none
  | Action.fetch id =>
    match s.tasks[id]? with
    | some TaskPc.fetching =>
      match cfg.getRandomsFromRandomOrg id cfg.setSize with
      | Outcome.ok r => some { s with tasks := s.tasks.set id (TaskPc.fetched r) }
      | Outcome.fail e =>
        some { s with tasks := s.tasks.set id (TaskPc.failed (FetchErr.call e)) }
    | _ => none
  | Action.abort id =>
    match s.tasks[id]? with
    | some TaskPc.fetching =>
      if s.ctxDone then
        some { s with tasks := s.tasks.set id (TaskPc.failed FetchErr.canceled) }
      else none
    | _ => none
  | Action.send id =>
    match s.tasks[id]? with
    | some (TaskPc.failed e) =>
      if s.errorsChannel.length < cfg.setsCount then
        some { s with tasks := s.tasks.set id (TaskPc.sent e), errorsChannel := s.errorsChannel ++ [e] }
      else none
    | _ => none
  | Action.cancel id =>
    match s.tasks[id]? with
    | some (TaskPc.sent e) =>
      some { s with tasks := s.tasks.set id (TaskPc.cancelled e), ctxDone := true }
    | _ => none
  | Action.store id =>
    match s.tasks[id]? with
    | some (TaskPc.fetched r) =>
      some { s with tasks := s.tasks.set id (TaskPc.stored r), sets := s.sets.set id r }
    | _ => none
  | Action.done id =>
    match s.tasks[id]? with
    | some (TaskPc.cancelled e) =>
      if 0 < s.wg then
        some { s with tasks := s.tasks.set id (TaskPc.doneErr e), wg := s.wg - 1 }
      else none
    | some (TaskPc.stored r) =>
      if 0 < s.wg then
        some { s with tasks := s.tasks.set id (TaskPc.doneOk r), wg := s.wg - 1 }
      else none
    | _ => none
  | Action.wait =>
    match s.main with
    | MainPc.loop i =>
      if cfg.setsCount ≤ i ∧ s.wg = 0 then some { s with main := MainPc.waited } else none
    | _ => none
  | Action.check =>
    match s.main with
    | MainPc.waited =>
      if s.ctxDone then some { s with main := MainPc.receiving }
      else some { s with main := MainPc.returned (some s.sets) none, ctxDone := true }
    | _ => none
  | Action.recv =>
    match s.main, s.errorsChannel with
    | MainPc.receiving, e :: rest =>
      some { s with main := MainPc.returned none (some e), errorsChannel := rest, ctxDone := true }
    | _, _ => none
  | Action.parentCancel =>
    if s.parentDone ∨ s.main.isReturned then none
    else some { s with parentDone := true, ctxDone := true }

/-- Replay of a schedule; `none` when one of its actions is not enabled. -/
def run (cfg : Config) (s : State) : List Action → Option State
  | [] => some s
  | a :: rest =>
    match step cfg s a with
    | some s' => run cfg s' rest
    | none => none

/-- The function `getRandomSets` (lines 66-92) under the schedule `acts`: the
state the call is in after these steps, `none` when the schedule is not one
of the call. -/
def getRandomSets (cfg : Config) (acts : List Action) : Option State :=
  run cfg (init cfg) acts

/-! ## getRandomSets: invariant -/

/-- One for a goroutine that is launched and has not returned. -/
@[simp] def TaskPc.active : TaskPc → Nat
  | TaskPc.idle => 0
  | TaskPc.fetching => 1
  | TaskPc.failed _ => 1
  | TaskPc.sent _ => 1
  | TaskPc.cancelled _ => 1
  | TaskPc.fetched _ => 1
  | TaskPc.stored _ => 1
  | TaskPc.doneErr _ => 0
  | TaskPc.doneOk _ => 0

/-- One for a goroutine that has executed the send of line 78. -/
@[simp] def TaskPc.sentW : TaskPc → Nat
  | TaskPc.idle => 0
  | TaskPc.fetching => 0
  | TaskPc.failed _ => 0
  | TaskPc.sent _ => 1
  | TaskPc.cancelled _ => 1
  | TaskPc.fetched _ => 0
  | TaskPc.stored _ => 0
  | TaskPc.doneErr _ => 1
  | TaskPc.doneOk _ => 0

/-- Number of steps a goroutine still has to take. -/
@[simp] def TaskPc.rank : TaskPc → Nat
  | TaskPc.idle => 5
  | TaskPc.fetching => 4
  | TaskPc.failed _ => 3
  | TaskPc.sent _ => 2
  | TaskPc.cancelled _ => 1
  | TaskPc.fetched _ => 2
  | TaskPc.stored _ => 1
  | TaskPc.doneErr _ => 0
  | TaskPc.doneOk _ => 0

/-- The goroutine has returned. -/
@[simp] def TaskPc.isDone : TaskPc → Bool
  | TaskPc.idle => false
  | TaskPc.fetching => false
  | TaskPc.failed _ => false
  | TaskPc.sent _ => false
  | TaskPc.cancelled _ => false
  | TaskPc.fetched _ => false
  | TaskPc.stored _ => false
  | TaskPc.doneErr _ => true
  | TaskPc.doneOk _ => true

/-- The local err of a goroutine whose fetch failed. -/
@[simp] def TaskPc.err? : TaskPc → Option FetchErr
  | TaskPc.idle => none
  | TaskPc.fetching => none
  | TaskPc.failed e => some e
  | TaskPc.sent e => some e
  | TaskPc.cancelled e => some e
  | TaskPc.fetched _ => none
  | TaskPc.stored _ => none
  | TaskPc.doneErr e => some e
  | TaskPc.doneOk _ => none

/-- The local result of a goroutine whose fetch succeeded. -/
@[simp] def TaskPc.ok? : TaskPc → Option (List Int)
  | TaskPc.idle => none
  | TaskPc.fetching => none
  | TaskPc.failed _ => none
  | TaskPc.sent _ => none
  | TaskPc.cancelled _ => none
  | TaskPc.fetched r => some r
  | TaskPc.stored r => some r
  | TaskPc.doneErr _ => none
  | TaskPc.doneOk r => some r

/-- The goroutine has executed cancel() of line 79. -/
@[simp] def TaskPc.hasCancelled : TaskPc → Bool
  | TaskPc.idle => false
  | TaskPc.fetching => false
  | TaskPc.failed _ => false
  | TaskPc.sent _ => false
  | TaskPc.cancelled _ => true
  | TaskPc.fetched _ => false
  | TaskPc.stored _ => false
  | TaskPc.doneErr _ => true
  | TaskPc.doneOk _ => false

/-- Number of steps the main goroutine still has to take after the loop. -/
@[simp] def MainPc.rank : MainPc → Nat
  | MainPc.loop _ => 3
  | MainPc.waited => 2
  | MainPc.receiving => 1
  | MainPc.returned _ _ => 0

/-- Termination measure of a call. -/
def measure (s : State) : Nat :=
  (s.tasks.map TaskPc.rank).sum + s.main.rank + (if s.parentDone then 0 else 1)

/-- What holds in every state a call can reach. -/
structure Inv (cfg : Config) (s : State) : Prop where
  lenTasks : s.tasks.length = cfg.setsCount
  lenSets : s.sets.length = cfg.setsCount
  wgEq : s.wg = (s.tasks.map TaskPc.active).sum
  loopLe : ∀ i, s.main = MainPc.loop i → i ≤ cfg.setsCount
  loopIdle : ∀ (i j : Nat), s.main = MainPc.loop i → i ≤ j → j < cfg.setsCount →
    s.tasks[j]? = some TaskPc.idle
  loopBusy : ∀ (i j : Nat), s.main = MainPc.loop i → j < i → s.tasks[j]? ≠ some TaskPc.idle
  afterLoop : (∀ i, s.main ≠ MainPc.loop i) → ∀ (j : Nat) (pc : TaskPc), s.tasks[j]? = some pc →
    pc.isDone = true
  chanLen : s.main.isReturned = false → s.errorsChannel.length = (s.tasks.map TaskPc.sentW).sum
  ctxOfCancel : ∀ (j : Nat) (pc : TaskPc), s.tasks[j]? = some pc → pc.hasCancelled = true →
    s.ctxDone = true
  ctxWhy : s.main.isReturned = false → s.ctxDone = true →
    s.parentDone = true ∨ ∃ (j : Nat) (pc : TaskPc), s.tasks[j]? = some pc ∧ pc.hasCancelled = true
  recvCtx : s.main = MainPc.receiving → s.ctxDone = true
  slots : ∀ (j : Nat) (r : List Int), s.tasks[j]? = some (TaskPc.stored r) ∨ s.tasks[j]? = some (TaskPc.doneOk r) →
    s.sets[j]? = some r
  okNatural : ∀ (j : Nat) (pc : TaskPc) (r : List Int), s.tasks[j]? = some pc → pc.ok? = some r →
    cfg.getRandomsFromRandomOrg j cfg.setSize = Outcome.ok r
  errOrigin : ∀ (j : Nat) (pc : TaskPc) (e : FetchErr), s.tasks[j]? = some pc → pc.err? = some e →
    (∃ u, e = FetchErr.call u ∧ cfg.getRandomsFromRandomOrg j cfg.setSize = Outcome.fail u) ∨ e = FetchErr.canceled
  retOk : ∀ r e, s.main = MainPc.returned (some r) e →
    e = none ∧ r = s.sets ∧ ∀ (j : Nat) (pc : TaskPc), s.tasks[j]? = some pc → pc.err? = none
  retErr : ∀ e, s.main = MainPc.returned none e → e ≠ none
  firstNat : s.parentDone = false → s.main.isReturned = false → s.errorsChannel = [] →
    ∀ (j : Nat) (pc : TaskPc), s.tasks[j]? = some pc → pc.err? ≠ some FetchErr.canceled
  headNat : s.parentDone = false → s.main.isReturned = false → ∀ e rest, s.errorsChannel = e :: rest →
    e ≠ FetchErr.canceled ∧ ∃ (j : Nat) (pc : TaskPc), s.tasks[j]? = some pc ∧ pc.err? = some e
  retNat : s.parentDone = false → ∀ r e, s.main = MainPc.returned r (some e) →
    e ≠ FetchErr.canceled ∧ ∃ (j : Nat) (pc : TaskPc), s.tasks[j]? = some pc ∧ pc.err? = some e


/-! ## getRandomSets: observations on schedules -/

/-- The error that action `a` puts into `errorsChannel` in state `s`. -/
def sentBy (s : State) : Action → List FetchErr
  | Action.send id =>
    match s.tasks[id]? with
    | some (TaskPc.failed e) => [e]
    | _ => []
  | _ => []

/-- The errors sent into `errorsChannel` along a schedule, in the order of
the sends. -/
def captured (cfg : Config) (s : State) : List Action → List FetchErr
  | [] => []
  | a :: rest =>
    match step cfg s a with
    | some s' => sentBy s a ++ captured cfg s' rest
    | none => []

/-- The data of a call, `nil` when it failed. -/
def Outcome.data : Outcome → List Int
  | Outcome.ok d => d
  | Outcome.fail _ => []

/-- The results of the calls in the order the goroutines are launched. -/
def launchOrder (cfg : Config) : List (List Int) :=
  (List.range cfg.setsCount).map (fun i => (cfg.getRandomsFromRandomOrg i cfg.setSize).data)

/-! ## getRandomSets: sample calls -/

/-- Two sets requested; the first call returns data, the second fails to
decode the response. -/
def cfgOneFails : Config :=
  { setsCount := 2, setSize := 3, parentDone := false,
    getRandomsFromRandomOrg := fun id _ => if id = 0 then Outcome.ok [10, 20, 30] else Outcome.fail CallErr.decode }

/-- A schedule of `cfgOneFails` in which the first call completes before the
second one fails. -/
def actsOneFails : List Action :=
  [Action.spawn, Action.spawn, Action.fetch 0, Action.store 0, Action.done 0, Action.fetch 1,
   Action.send 1, Action.cancel 1, Action.done 1, Action.wait, Action.check, Action.recv]

/-- Final state of `actsOneFails`. -/
def finalOneFails : State :=
  { main := MainPc.returned none (some (FetchErr.call CallErr.decode))
    tasks := [TaskPc.doneOk [10, 20, 30], TaskPc.doneErr (FetchErr.call CallErr.decode)]
    errorsChannel := []
    ctxDone := true
    parentDone := false
    sets := [[10, 20, 30], []]
    wg := 0 }

/-- Two sets requested, both calls return data. -/
def cfgBothOk : Config :=
  { setsCount := 2, setSize := 3, parentDone := false,
    getRandomsFromRandomOrg := fun id _ => if id = 0 then Outcome.ok [10, 20, 30] else Outcome.ok [0, 0, 0] }

/-- The calls of `cfgBothOk` complete in launch order. -/
def actsForward : List Action :=
  [Action.spawn, Action.spawn, Action.fetch 0, Action.store 0, Action.done 0, Action.fetch 1,
   Action.store 1, Action.done 1, Action.wait, Action.check]

/-- The calls of `cfgBothOk` complete in reverse order, the second one even
before the first goroutine is launched. -/
def actsReverse : List Action :=
  [Action.spawn, Action.spawn, Action.fetch 1, Action.store 1, Action.done 1, Action.fetch 0,
   Action.store 0, Action.done 0, Action.wait, Action.check]

/-- Final state of `actsForward` and of `actsReverse`. -/
def finalBothOk : State :=
  { main := MainPc.returned (some [[10, 20, 30], [0, 0, 0]]) none
    tasks := [TaskPc.doneOk [10, 20, 30], TaskPc.doneOk [0, 0, 0]]
    errorsChannel := []
    ctxDone := true
    parentDone := false
    sets := [[10, 20, 30], [0, 0, 0]]
    wg := 0 }

/-- Two sets requested; random.org answers the first call with error 402,
the second call would return data. -/
def cfgUpstream : Config :=
  { setsCount := 2, setSize := 3, parentDone := false,
    getRandomsFromRandomOrg := fun id _ =>
      if id = 0 then Outcome.fail (CallErr.upstream 402 "quota") else Outcome.ok [1, 2, 3] }

/-- The first call fails and cancels the context, which aborts the second
call. -/
def actsUpstream : List Action :=
  [Action.spawn, Action.spawn, Action.fetch 0, Action.send 0, Action.cancel 0, Action.abort 1,
   Action.send 1, Action.cancel 1, Action.done 1, Action.done 0, Action.wait, Action.check,
   Action.recv]

/-- Final state of `actsUpstream`: the cancellation error of the second
goroutine is left in the channel. -/
def finalUpstream : State :=
  { main := MainPc.returned none (some (FetchErr.call (CallErr.upstream 402 "quota")))
    tasks := [TaskPc.doneErr (FetchErr.call (CallErr.upstream 402 "quota")),
              TaskPc.doneErr FetchErr.canceled]
    errorsChannel := [FetchErr.canceled]
    ctxDone := true
    parentDone := false
    sets := [[], []]
    wg := 0 }

/-- No set requested, parent context alive. -/
def cfgEmpty : Config :=
  { setsCount := 0, setSize := 3, parentDone := false,
    getRandomsFromRandomOrg := fun _ _ => Outcome.ok [] }

/-- Final state of the schedule `[wait, check]` of `cfgEmpty`. -/
def finalEmpty : State :=
  { main := MainPc.returned (some []) none
    tasks := []
    errorsChannel := []
    ctxDone := true
    parentDone := false
    sets := []
    wg := 0 }

/-- No set requested, and the parent context is already cancelled when
`getRandomSets` is called. -/
def cfgParentCancelled : Config :=
  { setsCount := 0, setSize := 3, parentDone := true,
    getRandomsFromRandomOrg := fun _ _ => Outcome.ok [] }

/-- One set requested, the call returns data. -/
def cfgOneOk : Config :=
  { setsCount := 1, setSize := 3, parentDone := false,
    getRandomsFromRandomOrg := fun _ _ => Outcome.ok [7, 8, 9] }

/-- The only call succeeds and its goroutine returns; then the parent
context is cancelled before `getRandomSets` reaches line 88. -/
def actsLateCancel : List Action :=
  [Action.spawn, Action.fetch 0, Action.store 0, Action.done 0, Action.parentCancel, Action.wait,
   Action.check]

/-! ## float64

Go's `float64` is IEEE 754 binary64 and its `+ - /`, `math.Sqrt` and the
conversion from `int` round to nearest, ties to even. A finite value is kept as
sign, mantissa and exponent, `(-1)^neg * m * 2^e`, in the form the hardware
stores: `m < 2^53`, `-1074 ≤ e ≤ 971`, and `2^52 ≤ m` unless `e = -1074`. -/

/-- A `float64` value. -/
inductive F64
  | nan
  | inf (neg : Bool)
  | fin (neg : Bool) (m : Nat) (e : Int)
  deriving DecidableEq, Repr

namespace F64

/-- The value `+0`. -/
def zero : F64 := fin false 0 (-1074)

/-- Number of binary digits of `n`, computed with `fuel` halvings. -/
def bitsAux : Nat → Nat → Nat
  | 0, _ => 0
  | fuel + 1, n => if n = 0 then 0 else bitsAux fuel (n / 2) + 1

/-- Number of binary digits of `n`: `0` for `0`, and `k` when
`2^(k-1) ≤ n < 2^k`. -/
def bitLength (n : Nat) : Nat :=
  bitsAux n n

/-- Quotient of `M / 2^sh` rounded to nearest, ties to even; `sticky` says that
the rounded quantity is a little larger than `M` (by less than one unit). -/
def roundShift (M sh : Nat) (sticky : Bool) : Nat :=
  let q := M / 2 ^ sh
  let r := M % 2 ^ sh
  let half := 2 ^ (sh - 1)
  if sh = 0 then q
  else if half < r ∨ (r = half ∧ (sticky = true ∨ q % 2 = 1)) then q + 1
  else q

/-- The `float64` nearest to `(-1)^neg * (M + d) * 2^E`, where `d = 0` when
`sticky` is false and `0 < d < 1` otherwise; in the second case `M` must have
more than 54 bits. Ties go to the even mantissa, values beyond the largest
finite `float64` go to infinity. -/
def round (neg : Bool) (M : Nat) (E : Int) (sticky : Bool) : F64 :=
  if M = 0 then fin neg 0 (-1074)
  else
    let bits : Int := bitLength M
    let e := max (E + bits - 53) (-1074)
    if e ≤ E then
      if 971 < e then inf neg else fin neg (M * 2 ^ (E - e).toNat) e
    else
      let m := roundShift M (e - E).toNat sticky
      if m = 2 ^ 53 then
        if 971 < e + 1 then inf neg else fin neg (2 ^ 52) (e + 1)
      else
        if 971 < e then inf neg else fin neg m e

/-- Conversion `float64(k)` of an integer. -/
def ofInt (k : Int) : F64 :=
  round (decide (k < 0)) k.natAbs 0 false

/-- Unary minus. -/
def neg : F64 → F64
  | nan => nan
  | inf s => inf (!s)
  | fin s m e => fin (!s) m e

/-- The sum `x + y`. -/
def add : F64 → F64 → F64
  | nan, _ => nan
  | _, nan => nan
  | inf s, inf t => if s = t then inf s else nan
  | inf s, fin _ _ _ => inf s
  | fin _ _ _, inf t => inf t
  | fin s m e, fin t n f =>
    let g := min e f
    let a : Int := (if s then -1 else 1) * (m * 2 ^ (e - g).toNat : Nat)
    let b : Int := (if t then -1 else 1) * (n * 2 ^ (f - g).toNat : Nat)
    let c := a + b
    if c = 0 then fin (s && t) 0 (-1074)
    else round (decide (c < 0)) c.natAbs g false

/-- The difference `x - y`. -/
def sub (x y : F64) : F64 :=
  add x (neg y)

/-- The quotient `x / y`. -/
def div : F64 → F64 → F64
  | nan, _ => nan
  | _, nan => nan
  | inf _, inf _ => nan
  | inf s, fin t _ _ => inf (xor s t)
  | fin s _ _, inf t => fin (xor s t) 0 (-1074)
  | fin s m e, fin t n f =>
    if n = 0 then
      if m = 0 then nan else inf (xor s t)
    else
      let k := bitLength n + 64
      let q := m * 2 ^ k / n
      let r := m * 2 ^ k % n
      round (xor s t) q (e - f - k) (decide (r ≠ 0))

/-- Integer square root by bits: with `r^2 ≤ n < (r + 2^i)^2` it returns the
largest `s` with `s^2 ≤ n`. -/
def isqrtBits (n : Nat) : Nat → Nat → Nat
  | 0, r => r
  | i + 1, r => if (r + 2 ^ i) * (r + 2 ^ i) ≤ n then isqrtBits n i (r + 2 ^ i) else isqrtBits n i r

/-- Integer square root. -/
def isqrt (n : Nat) : Nat :=
  isqrtBits n (bitLength n / 2 + 1) 0

/-- The square root `math.Sqrt(x)`, correctly rounded. -/
def sqrt : F64 → F64
  | nan => nan
  | inf s => if s then nan else inf false
  | fin s m e =>
    if m = 0 then fin s 0 (-1074)
    else if s then nan
    else
      let j : Int := 112 + (e % 2)
      let M := m * 2 ^ j.toNat
      let r := isqrt M
      round false r ((e - j) / 2) (decide (r * r ≠ M))

/-- The value `math.Pow(x, 2)` of the Go library: after the special cases for
NaN, zero and infinity the mantissa of `x` is squared in `float64` (`x1 *= x1`,
a rounding to 53 bits) and the result is scaled by `math.Ldexp`, which rounds
once more where the result is subnormal. -/
def powTwo : F64 → F64
  | nan => nan
  | inf _ => inf false
  | fin _ m e =>
    if m = 0 then fin false 0 (-1074)
    else
      let bits := bitLength (m * m)
      if bits ≤ 53 then round false (m * m) (e + e) false
      else
        let m1 := roundShift (m * m) (bits - 53) false
        round false m1 (e + e + ((bits - 53 : Nat) : Int)) false

/-- The value times `10^4`, rounded to the nearest integer, halves away from
zero: the value "rounded to four decimal places", in units of `0.0001`. -/
def round4 : F64 → Option Int
  | fin s m e =>
    let num : Nat := if 0 ≤ e then m * 10 ^ 4 * 2 ^ e.toNat else m * 10 ^ 4
    let den : Nat := if 0 ≤ e then 1 else 2 ^ (-e).toNat
    let q := (2 * num + den) / (2 * den)
    some (if s then -(q : Int) else (q : Int))
  | _ => none

end F64

/-! ## stdDev and calculateResults -/

/-- Go's `int` addition on a 64-bit platform wraps around. -/
def wrap64 (x : Int) : Int :=
  (x + 2 ^ 63) % 2 ^ 64 - 2 ^ 63

/-- Lines 96-99 of `stdDev`: the sum of the values as an `int`. -/
def intSum (set : List Int) : Int :=
  set.foldl (fun sum value => wrap64 (sum + value)) 0

/-- The function `stdDev` (lines 94-108). -/
def stdDev (set : List Int) : F64 :=
  let count : Int := set.length
  let sum := intSum set
  let mean := F64.div (F64.ofInt sum) (F64.ofInt count)
  let acc := set.foldl
    (fun acc value => F64.add acc (F64.powTwo (F64.sub (F64.ofInt value) mean))) F64.zero
  F64.sqrt (F64.div acc (F64.ofInt count))

/-- The struct `resultItem` (lines 30-33); a nil `Data` is `[]`. -/
structure resultItem where
  Data : List Int
  StdDev : F64
  deriving DecidableEq, Repr

/-- Lines 115-118 of `calculateResults`: the loop over `sets`, started at
index `i` with the items `results` and the values `union` collected so far. -/
def calculateLoop : List (List Int) → Nat → List resultItem → List Int →
    List resultItem × List Int
  | [], _, results, union => (results, union)
  | set :: rest, i, results, union =>
    calculateLoop rest (i + 1) (results.set i ⟨set, stdDev set⟩) (union ++ set)

/-- The function `calculateResults` (lines 110-122). -/
def calculateResults (sets : List (List Int)) : List resultItem :=
  let resultLength := sets.length + 1
  let results := List.replicate resultLength (⟨[], F64.zero⟩ : resultItem)
  let (results, union) := calculateLoop sets 0 results []
  results.set (resultLength - 1) ⟨union, stdDev union⟩

/-- The population standard deviation as the specification words it, with
every operation carried out in `float64`: the mean is the sum of the values
(the exact integer) divided by their number, the variance is the sum of the
squared deviations from the mean, taken in the order of the sequence, divided
by the number of values (not by that number less one), and the result is the
square root of the variance. -/
def populationStdDev (S : List Int) : F64 :=
  let count := F64.ofInt S.length
  let mean := F64.div (F64.ofInt S.sum) count
  let squares := S.map (fun x => F64.powTwo (F64.sub (F64.ofInt x) mean))
  let variance := F64.div (squares.foldl F64.add F64.zero) count
  F64.sqrt variance

/-! ## float64: the stored form and exact sums -/

namespace F64

/-- The finite values are in the form the hardware stores. -/
def Canonical : F64 → Prop
  | fin _ m e => m < 2 ^ 53 ∧ -1074 ≤ e ∧ e ≤ 971 ∧ (2 ^ 52 ≤ m ∨ e = -1074)
  | _ => True

/-- A value that is not negative: NaN, `+Inf`, or a stored finite value with
sign bit clear. -/
def Good : F64 → Prop
  | nan => True
  | inf s => s = false
  | fin s m e => s = false ∧ Canonical (fin s m e)

/-- The finite value as a multiple of `2^-1074`, the smallest positive
`float64`. -/
def units : F64 → Option Int
  | fin s m e => if -1074 ≤ e then some ((if s then -1 else 1) * (m * 2 ^ (e + 1074).toNat : Nat))
                 else none
  | _ => none

/-- The exact sum of finite values, in multiples of `2^-1074`. -/
def unitsSum : List F64 → Option Int
  | [] => some 0
  | t :: ts =>
    match units t, unitsSum ts with
    | some u, some v => some (u + v)
    | _, _ => none

end F64

/-- The mean computed on line 100 of `stdDev`. -/
def meanOf (set : List Int) : F64 :=
  F64.div (F64.ofInt (intSum set)) (F64.ofInt (set.length : Int))

/-- The squared deviations that the loop of lines 103-105 adds up. -/
def sqDevs (set : List Int) : List F64 :=
  set.map (fun value => F64.powTwo (F64.sub (F64.ofInt value) (meanOf set)))

/-- The value of the local `stdDev` after the loop of lines 103-105. -/
def accOf (set : List Int) : F64 :=
  (sqDevs set).foldl F64.add F64.zero

/-- The loop of lines 103-105 adds up the squared deviations without any
rounding error: the accumulated `float64` is finite and is their exact sum. -/
def accExact (set : List Int) : Prop :=
  (F64.units (accOf set)).isSome = true ∧ F64.units (accOf set) = F64.unitsSum (sqDevs set)

instance (set : List Int) : Decidable (accExact set) := by
  unfold accExact
  infer_instance

/-- The exact population variance of `S` times the square of its length:
`n * Σ x² - (Σ x)²`, an integer. -/
def varianceTimesCountSq (S : List Int) : Int :=
  (S.length : Int) * (S.map (fun x => x * x)).sum - S.sum * S.sum

/-- The sum of the squared deviations of the values from the integer `mu`. -/
def sumSqDev (S : List Int) (mu : Int) : Int :=
  (S.map (fun x => (x - mu) * (x - mu))).sum
/-! ## getRandomSets: proofs -/

theorem sum_map_set {α : Type} (f : α → Nat) :
    ∀ (l : List α) (i : Nat) (a b : α), l[i]? = some a →
      ((l.set i b).map f).sum + f a = (l.map f).sum + f b := by
  intro l
  induction l with
  | nil => intro i a b h; simp at h
  | cons x xs ih =>
    intro i a b h
    cases i with
    | zero =>
      simp at h
      subst h
      simp only [List.set_cons_zero, List.map_cons, List.sum_cons]
      omega
    | succ k =>
      simp at h
      have := ih k a b h
      simp only [List.set_cons_succ, List.map_cons, List.sum_cons]
      omega


theorem getElem?_set_some {α : Type} (l : List α) (i j : Nat) (b x : α) :
    (l.set i b)[j]? = some x ↔ (i = j ∧ j < l.length ∧ x = b) ∨ (i ≠ j ∧ l[j]? = some x) := by
  rw [List.getElem?_set]
  by_cases h : i = j
  · subst h
    by_cases h2 : i < l.length
    · simp [h2, eq_comm]
    · simp [h2]
  · simp [h]

theorem inv_init (cfg : Config) : Inv cfg (init cfg) := by
  constructor <;> simp [init, List.getElem?_replicate] <;> intros <;> subst_vars <;>
    first | omega | simp_all

theorem le_sum_map {α : Type} (f : α → Nat) :
    ∀ (l : List α) (i : Nat) (a : α), l[i]? = some a → f a ≤ (l.map f).sum := by
  intro l
  induction l with
  | nil => intro i a h; simp at h
  | cons x xs ih =>
    intro i a h
    cases i with
    | zero =>
      simp at h
      subst h
      simp
    | succ k =>
      simp at h
      have := ih k a h
      simp only [List.map_cons, List.sum_cons]
      omega

theorem main_loop_of_busy (cfg : Config) (s : State) (id : Nat) (pc : TaskPc) (h : Inv cfg s)
    (hpc : s.tasks[id]? = some pc) (hnd : pc.isDone = false) : ∃ i, s.main = MainPc.loop i := by
  by_contra hcon
  have h1 := h.afterLoop (fun i hi => hcon ⟨i, hi⟩) id pc hpc
  rw [hnd] at h1
  exact Bool.noConfusion h1

theorem inv_task (cfg : Config) (s : State) (id : Nat) (pc pc' : TaskPc)
    (c' : List FetchErr) (d' : Bool) (st' : List (List Int)) (w' : Nat)
    (h : Inv cfg s) (hpc : s.tasks[id]? = some pc)
    (hidle : pc' ≠ TaskPc.idle) (hnidle : pc ≠ TaskPc.idle) (hnd : pc.isDone = false)
    (hwg : w' + pc.active = s.wg + pc'.active)
    (hch : c'.length + pc.sentW = s.errorsChannel.length + pc'.sentW)
    (hmono : pc.hasCancelled = true → pc'.hasCancelled = true)
    (hd1 : pc'.hasCancelled = true → d' = true)
    (hd2 : s.ctxDone = true → d' = true)
    (hd3 : d' = true → s.ctxDone = true ∨ pc'.hasCancelled = true)
    (hst1 : st'.length = s.sets.length)
    (hst2 : ∀ j, j ≠ id → st'[j]? = s.sets[j]?)
    (hst3 : ∀ r, pc' = TaskPc.stored r ∨ pc' = TaskPc.doneOk r → st'[id]? = some r)
    (hok : ∀ r, pc'.ok? = some r → cfg.getRandomsFromRandomOrg id cfg.setSize = Outcome.ok r)
    (herr : ∀ e, pc'.err? = some e →
      (∃ u, e = FetchErr.call u ∧ cfg.getRandomsFromRandomOrg id cfg.setSize = Outcome.fail u) ∨
        e = FetchErr.canceled)
    (hemono : ∀ e, pc.err? = some e → pc'.err? = some e)
    (hfirst : s.parentDone = false → s.main.isReturned = false → c' = [] →
      (s.errorsChannel = [] ∧ pc'.err? ≠ some FetchErr.canceled))
    (hhead : s.parentDone = false → s.main.isReturned = false → ∀ e rest, c' = e :: rest →
      e ≠ FetchErr.canceled ∧
        ((∃ (j : Nat) (q : TaskPc), s.tasks[j]? = some q ∧ q.err? = some e) ∨
          pc'.err? = some e)) :
    Inv cfg { s with tasks := s.tasks.set id pc', errorsChannel := c', ctxDone := d', sets := st',
                     wg := w' } := by
  obtain ⟨i0, hi0⟩ := main_loop_of_busy cfg s id pc h hpc hnd
  have hw := sum_map_set TaskPc.active s.tasks id pc pc' hpc
  have hc := sum_map_set TaskPc.sentW s.tasks id pc pc' hpc
  constructor
  · simp only [List.length_set]; exact h.lenTasks
  · exact hst1.trans h.lenSets
  · have := h.wgEq
    show w' = (List.map TaskPc.active (s.tasks.set id pc')).sum
    omega
  · exact h.loopLe
  · intro i j hm hij hjn
    have h1 := h.loopIdle i j hm hij hjn
    show (s.tasks.set id pc')[j]? = some TaskPc.idle
    rw [getElem?_set_some]
    right
    refine ⟨?_, h1⟩
    intro heq
    subst heq
    rw [hpc] at h1
    exact hnidle (Option.some.inj h1)
  · intro i j hm hji
    show (s.tasks.set id pc')[j]? ≠ some TaskPc.idle
    rw [Ne, getElem?_set_some]
    rintro (⟨_, _, hx⟩ | ⟨_, hx⟩)
    · exact hidle hx.symm
    · exact h.loopBusy i j hm hji hx
  · intro hnl
    exact absurd hi0 (hnl i0)
  · intro hr
    have := h.chanLen hr
    show c'.length = (List.map TaskPc.sentW (s.tasks.set id pc')).sum
    omega
  · intro j q hq hcq
    change (s.tasks.set id pc')[j]? = some q at hq
    rw [getElem?_set_some] at hq
    rcases hq with ⟨_, _, rfl⟩ | ⟨_, hq⟩
    · exact hd1 hcq
    · exact hd2 (h.ctxOfCancel j q hq hcq)
  · intro hr hd
    change d' = true at hd
    rcases hd3 hd with h1 | h1
    · rcases h.ctxWhy hr h1 with hp | ⟨j, q, hq, hcq⟩
      · exact Or.inl hp
      · right
        by_cases hj : id = j
        · subst hj
          rw [hpc] at hq
          have hq2 := Option.some.inj hq
          subst hq2
          refine ⟨id, pc', ?_, hmono hcq⟩
          show (s.tasks.set id pc')[id]? = some pc'
          rw [getElem?_set_some]
          left
          exact ⟨rfl, (List.getElem?_eq_some.mp hpc).1, rfl⟩
        · refine ⟨j, q, ?_, hcq⟩
          show (s.tasks.set id pc')[j]? = some q
          rw [getElem?_set_some]
          exact Or.inr ⟨hj, hq⟩
    · right
      refine ⟨id, pc', ?_, h1⟩
      show (s.tasks.set id pc')[id]? = some pc'
      rw [getElem?_set_some]
      left
      exact ⟨rfl, (List.getElem?_eq_some.mp hpc).1, rfl⟩
  · intro hm
    exact hd2 (h.recvCtx hm)
  · intro j r hj
    change (s.tasks.set id pc')[j]? = some (TaskPc.stored r) ∨
      (s.tasks.set id pc')[j]? = some (TaskPc.doneOk r) at hj
    rw [getElem?_set_some, getElem?_set_some] at hj
    show st'[j]? = some r
    by_cases hjid : id = j
    · subst hjid
      apply hst3
      rcases hj with (⟨_, _, hx⟩ | ⟨hne, _⟩) | (⟨_, _, hx⟩ | ⟨hne, _⟩)
      · exact Or.inl hx.symm
      · exact absurd rfl hne
      · exact Or.inr hx.symm
      · exact absurd rfl hne
    · rw [hst2 j (fun hx => hjid hx.symm)]
      apply h.slots
      rcases hj with (⟨he, _, _⟩ | ⟨_, hx⟩) | (⟨he, _, _⟩ | ⟨_, hx⟩)
      · exact absurd he hjid
      · exact Or.inl hx
      · exact absurd he hjid
      · exact Or.inr hx
  · intro j q r hq hr
    change (s.tasks.set id pc')[j]? = some q at hq
    rw [getElem?_set_some] at hq
    rcases hq with ⟨rfl, _, rfl⟩ | ⟨_, hq⟩
    · exact hok r hr
    · exact h.okNatural j q r hq hr
  · intro j q e hq he
    change (s.tasks.set id pc')[j]? = some q at hq
    rw [getElem?_set_some] at hq
    rcases hq with ⟨rfl, _, rfl⟩ | ⟨_, hq⟩
    · exact herr e he
    · exact h.errOrigin j q e hq he
  · intro r e hm
    change s.main = _ at hm
    rw [hi0] at hm
    exact MainPc.noConfusion hm
  · intro e hm
    change s.main = _ at hm
    rw [hi0] at hm
    exact MainPc.noConfusion hm
  · intro hp hr hc0 j q hq
    change (s.tasks.set id pc')[j]? = some q at hq
    obtain ⟨hs0, hnew⟩ := hfirst hp hr hc0
    rw [getElem?_set_some] at hq
    rcases hq with ⟨rfl, _, rfl⟩ | ⟨_, hq⟩
    · exact hnew
    · exact h.firstNat hp hr hs0 j q hq
  · intro hp hr e rest hc0
    obtain ⟨hne, hex⟩ := hhead hp hr e rest hc0
    refine ⟨hne, ?_⟩
    have hnew : (s.tasks.set id pc')[id]? = some pc' := by
      rw [getElem?_set_some]
      left
      exact ⟨rfl, (List.getElem?_eq_some.mp hpc).1, rfl⟩
    rcases hex with ⟨j, q, hq, he⟩ | he
    · by_cases hj : id = j
      · subst hj
        rw [hpc] at hq
        have hq2 := Option.some.inj hq
        subst hq2
        exact ⟨id, pc', hnew, hemono e he⟩
      · refine ⟨j, q, ?_, he⟩
        show (s.tasks.set id pc')[j]? = some q
        rw [getElem?_set_some]
        exact Or.inr ⟨hj, hq⟩
    · exact ⟨id, pc', hnew, he⟩
  · intro hp r e hm
    change s.main = _ at hm
    rw [hi0] at hm
    exact MainPc.noConfusion hm

theorem lt_of_getElem? (cfg : Config) (s : State) (id : Nat) (pc : TaskPc) (h : Inv cfg s)
    (hpc : s.tasks[id]? = some pc) : id < cfg.setsCount := by
  have := (List.getElem?_eq_some.mp hpc).1
  rw [h.lenTasks] at this
  exact this

theorem head_keep (cfg : Config) (s : State) (pc' : TaskPc) (h : Inv cfg s) :
    s.parentDone = false → s.main.isReturned = false → ∀ e rest, s.errorsChannel = e :: rest →
      e ≠ FetchErr.canceled ∧
        ((∃ (j : Nat) (q : TaskPc), s.tasks[j]? = some q ∧ q.err? = some e) ∨
          pc'.err? = some e) :=
  fun hp hr e rest hc => ⟨(h.headNat hp hr e rest hc).1, Or.inl (h.headNat hp hr e rest hc).2⟩

theorem inv_fetch (cfg : Config) (s s' : State) (id : Nat) (h : Inv cfg s)
    (hs : step cfg s (Action.fetch id) = some s') : Inv cfg s' := by
  simp only [step] at hs
  split at hs
  · rename_i hpc
    split at hs
    · rename_i r hf
      simp only [Option.some.injEq] at hs
      subst hs
      refine inv_task cfg s id _ (TaskPc.fetched r) s.errorsChannel s.ctxDone s.sets s.wg h hpc
        ?_ ?_ ?_ ?_ ?_ ?_ ?_ ?_ ?_ ?_ ?_ ?_ ?_ ?_ ?_ (fun _ _ hc => ⟨hc, ?_⟩)
        (head_keep cfg s _ h)
      all_goals simp
      exact hf
    · rename_i e hf
      simp only [Option.some.injEq] at hs
      subst hs
      refine inv_task cfg s id _ (TaskPc.failed (FetchErr.call e)) s.errorsChannel s.ctxDone s.sets s.wg
        h hpc ?_ ?_ ?_ ?_ ?_ ?_ ?_ ?_ ?_ ?_ ?_ ?_ ?_ ?_ ?_ (fun _ _ hc => ⟨hc, ?_⟩)
        (head_keep cfg s _ h)
      all_goals simp
      exact hf
  · simp at hs

theorem inv_abort (cfg : Config) (s s' : State) (id : Nat) (h : Inv cfg s)
    (hs : step cfg s (Action.abort id) = some s') : Inv cfg s' := by
  simp only [step] at hs
  split at hs
  · rename_i hpc
    split at hs
    · rename_i hctx
      simp only [Option.some.injEq] at hs
      subst hs
      refine inv_task cfg s id _ (TaskPc.failed FetchErr.canceled) s.errorsChannel s.ctxDone s.sets s.wg
        h hpc ?_ ?_ ?_ ?_ ?_ ?_ ?_ ?_ ?_ ?_ ?_ ?_ ?_ ?_ ?_ (fun hp hr hc => ⟨hc, ?_⟩)
        (head_keep cfg s _ h)
      all_goals simp
      rcases h.ctxWhy hr hctx with h1 | ⟨j, q, hq, hcq⟩
      · rw [hp] at h1
        exact Bool.noConfusion h1
      · have h2 := le_sum_map TaskPc.sentW s.tasks j q hq
        have h3 := h.chanLen hr
        rw [hc] at h3
        have h4 : q.sentW = 1 := by cases q <;> simp_all
        simp at h3
        omega
    · simp at hs
  · simp at hs

theorem inv_send (cfg : Config) (s s' : State) (id : Nat) (h : Inv cfg s)
    (hs : step cfg s (Action.send id) = some s') : Inv cfg s' := by
  simp only [step] at hs
  split at hs
  · rename_i e hpc
    split at hs
    · simp only [Option.some.injEq] at hs
      subst hs
      refine inv_task cfg s id _ (TaskPc.sent e) (s.errorsChannel ++ [e]) s.ctxDone s.sets s.wg
        h hpc ?_ ?_ ?_ ?_ ?_ ?_ ?_ ?_ ?_ ?_ ?_ ?_ ?_ ?_ ?_ (fun hp hr hc => ?_)
        (fun hp hr e0 rest hc => ?_)
      all_goals (try simp)
      · exact h.errOrigin id _ e hpc rfl
      · simp at hc
      · cases hch : s.errorsChannel with
        | nil =>
          rw [hch] at hc
          simp at hc
          obtain ⟨rfl, _⟩ := hc
          refine ⟨?_, Or.inr rfl⟩
          intro hx
          apply h.firstNat hp hr hch id _ hpc
          rw [hx]
          rfl
        | cons x xs =>
          rw [hch] at hc
          simp at hc
          obtain ⟨rfl, _⟩ := hc
          exact ⟨(h.headNat hp hr _ _ hch).1, Or.inl (h.headNat hp hr _ _ hch).2⟩
    · simp at hs
  · simp at hs

theorem inv_cancel (cfg : Config) (s s' : State) (id : Nat) (h : Inv cfg s)
    (hs : step cfg s (Action.cancel id) = some s') : Inv cfg s' := by
  simp only [step] at hs
  split at hs
  · rename_i e hpc
    simp only [Option.some.injEq] at hs
    subst hs
    refine inv_task cfg s id _ (TaskPc.cancelled e) s.errorsChannel true s.sets s.wg
      h hpc ?_ ?_ ?_ ?_ ?_ ?_ ?_ ?_ ?_ ?_ ?_ ?_ ?_ ?_ ?_ (fun hp hr hc => ⟨hc, ?_⟩)
      (head_keep cfg s _ h)
    all_goals (try simp)
    · exact h.errOrigin id _ e hpc rfl
    · simpa using h.firstNat hp hr hc id _ hpc
  · simp at hs

theorem inv_store (cfg : Config) (s s' : State) (id : Nat) (h : Inv cfg s)
    (hs : step cfg s (Action.store id) = some s') : Inv cfg s' := by
  simp only [step] at hs
  split at hs
  · rename_i r hpc
    simp only [Option.some.injEq] at hs
    subst hs
    have hlt : id < s.sets.length := by
      rw [h.lenSets]
      exact lt_of_getElem? cfg s id _ h hpc
    refine inv_task cfg s id _ (TaskPc.stored r) s.errorsChannel s.ctxDone (s.sets.set id r) s.wg
      h hpc ?_ ?_ ?_ ?_ ?_ ?_ ?_ ?_ ?_ ?_ ?_ ?_ ?_ ?_ ?_ (fun hp hr hc => ⟨hc, ?_⟩)
      (head_keep cfg s _ h)
    all_goals (try simp)
    · intro j hj
      rw [List.getElem?_set_ne (fun hx => hj hx.symm)]
    · exact List.getElem?_set_self hlt
    · exact h.okNatural id _ r hpc rfl
  · simp at hs

theorem inv_done (cfg : Config) (s s' : State) (id : Nat) (h : Inv cfg s)
    (hs : step cfg s (Action.done id) = some s') : Inv cfg s' := by
  simp only [step] at hs
  split at hs
  · rename_i e hpc
    split at hs
    · rename_i hwg
      simp only [Option.some.injEq] at hs
      subst hs
      refine inv_task cfg s id _ (TaskPc.doneErr e) s.errorsChannel s.ctxDone s.sets (s.wg - 1)
        h hpc ?_ ?_ ?_ ?_ ?_ ?_ ?_ ?_ ?_ ?_ ?_ ?_ ?_ ?_ ?_ (fun hp hr hc => ⟨hc, ?_⟩)
        (head_keep cfg s _ h)
      all_goals (try simp)
      · omega
      · exact h.ctxOfCancel id _ hpc rfl
      · exact h.errOrigin id _ e hpc rfl
      · simpa using h.firstNat hp hr hc id _ hpc
    · simp at hs
  · rename_i r hpc
    split at hs
    · rename_i hwg
      simp only [Option.some.injEq] at hs
      subst hs
      refine inv_task cfg s id _ (TaskPc.doneOk r) s.errorsChannel s.ctxDone s.sets (s.wg - 1)
        h hpc ?_ ?_ ?_ ?_ ?_ ?_ ?_ ?_ ?_ ?_ ?_ ?_ ?_ ?_ ?_ (fun hp hr hc => ⟨hc, ?_⟩)
        (head_keep cfg s _ h)
      all_goals (try simp)
      · omega
      · exact h.slots id r (Or.inl hpc)
      · exact h.okNatural id _ r hpc rfl
    · simp at hs
  · simp at hs

theorem inv_spawn (cfg : Config) (s s' : State) (h : Inv cfg s)
    (hs : step cfg s Action.spawn = some s') : Inv cfg s' := by
  simp only [step] at hs
  split at hs
  · rename_i i hm
    split at hs
    · rename_i hi
      simp only [Option.some.injEq] at hs
      subst hs
      have hpc := h.loopIdle i i hm (le_refl i) hi
      have hw := sum_map_set TaskPc.active s.tasks i _ TaskPc.fetching hpc
      have hc := sum_map_set TaskPc.sentW s.tasks i _ TaskPc.fetching hpc
      have hr : s.main.isReturned = false := by rw [hm]; rfl
      constructor
      · simp only [List.length_set]; exact h.lenTasks
      · exact h.lenSets
      · have := h.wgEq
        simp only [TaskPc.active] at hw
        show s.wg + 1 = (List.map TaskPc.active (s.tasks.set i TaskPc.fetching)).sum
        omega
      · intro k hk
        simp only [MainPc.loop.injEq] at hk
        omega
      · intro k j hk hkj hjn
        simp only [MainPc.loop.injEq] at hk
        show (s.tasks.set i TaskPc.fetching)[j]? = some TaskPc.idle
        rw [getElem?_set_some]
        right
        exact ⟨by omega, h.loopIdle i j hm (by omega) hjn⟩
      · intro k j hk hjk
        simp only [MainPc.loop.injEq] at hk
        show (s.tasks.set i TaskPc.fetching)[j]? ≠ some TaskPc.idle
        rw [Ne, getElem?_set_some]
        rintro (⟨_, _, hx⟩ | ⟨hne, hx⟩)
        · exact TaskPc.noConfusion hx
        · exact h.loopBusy i j hm (by omega) hx
      · intro hnl
        exact absurd rfl (hnl (i + 1))
      · intro _
        have := h.chanLen hr
        simp only [TaskPc.sentW] at hc
        show s.errorsChannel.length = (List.map TaskPc.sentW (s.tasks.set i TaskPc.fetching)).sum
        omega
      · intro j q hq hcq
        change (s.tasks.set i TaskPc.fetching)[j]? = some q at hq
        rw [getElem?_set_some] at hq
        rcases hq with ⟨_, _, rfl⟩ | ⟨_, hq⟩
        · exact Bool.noConfusion hcq
        · exact h.ctxOfCancel j q hq hcq
      · intro _ hd
        rcases h.ctxWhy hr hd with hp | ⟨j, q, hq, hcq⟩
        · exact Or.inl hp
        · right
          refine ⟨j, q, ?_, hcq⟩
          show (s.tasks.set i TaskPc.fetching)[j]? = some q
          rw [getElem?_set_some]
          right
          refine ⟨?_, hq⟩
          intro hij
          subst hij
          rw [hpc] at hq
          have := Option.some.inj hq
          subst this
          exact Bool.noConfusion hcq
      · intro hx
        exact MainPc.noConfusion hx
      · intro j r hj
        change (s.tasks.set i TaskPc.fetching)[j]? = some (TaskPc.stored r) ∨
          (s.tasks.set i TaskPc.fetching)[j]? = some (TaskPc.doneOk r) at hj
        rw [getElem?_set_some, getElem?_set_some] at hj
        apply h.slots
        rcases hj with (⟨_, _, hx⟩ | ⟨_, hx⟩) | (⟨_, _, hx⟩ | ⟨_, hx⟩)
        · exact TaskPc.noConfusion hx
        · exact Or.inl hx
        · exact TaskPc.noConfusion hx
        · exact Or.inr hx
      · intro j q r hq hrq
        change (s.tasks.set i TaskPc.fetching)[j]? = some q at hq
        rw [getElem?_set_some] at hq
        rcases hq with ⟨_, _, rfl⟩ | ⟨_, hq⟩
        · exact Option.noConfusion hrq
        · exact h.okNatural j q r hq hrq
      · intro j q e hq he
        change (s.tasks.set i TaskPc.fetching)[j]? = some q at hq
        rw [getElem?_set_some] at hq
        rcases hq with ⟨_, _, rfl⟩ | ⟨_, hq⟩
        · exact Option.noConfusion he
        · exact h.errOrigin j q e hq he
      · intro r e hx
        exact MainPc.noConfusion hx
      · intro e hx
        exact MainPc.noConfusion hx
      · intro hp _ hc0 j q hq
        change (s.tasks.set i TaskPc.fetching)[j]? = some q at hq
        rw [getElem?_set_some] at hq
        rcases hq with ⟨_, _, rfl⟩ | ⟨_, hq⟩
        · exact fun hx => Option.noConfusion hx
        · exact h.firstNat hp hr hc0 j q hq
      · intro hp _ e rest hc0
        obtain ⟨hne, j, q, hq, he⟩ := h.headNat hp hr e rest hc0
        refine ⟨hne, j, q, ?_, he⟩
        show (s.tasks.set i TaskPc.fetching)[j]? = some q
        rw [getElem?_set_some]
        right
        refine ⟨?_, hq⟩
        intro hij
        subst hij
        rw [hpc] at hq
        have := Option.some.inj hq
        subst this
        exact Option.noConfusion he
      · intro hp r e hx
        exact MainPc.noConfusion hx
    · simp at hs
  · simp at hs

theorem inv_wait (cfg : Config) (s s' : State) (h : Inv cfg s)
    (hs : step cfg s Action.wait = some s') : Inv cfg s' := by
  simp only [step] at hs
  split at hs
  · rename_i i hm
    split at hs
    · rename_i hi
      simp only [Option.some.injEq] at hs
      subst hs
      have hr : s.main.isReturned = false := by rw [hm]; rfl
      exact
        { h with
          loopLe := fun k hk => MainPc.noConfusion hk
          loopIdle := fun k j hk => MainPc.noConfusion hk
          loopBusy := fun k j hk => MainPc.noConfusion hk
          afterLoop := by
            intro _ j pc hpc
            have h1 := le_sum_map TaskPc.active s.tasks j pc hpc
            have h2 := h.wgEq
            have h3 : j < i := by
              have := lt_of_getElem? cfg s j pc h hpc
              omega
            have h4 := h.loopBusy i j hm h3
            cases pc <;> simp_all
          chanLen := fun _ => h.chanLen hr
          ctxWhy := fun _ => h.ctxWhy hr
          recvCtx := fun hk => MainPc.noConfusion hk
          retOk := fun r e hk => MainPc.noConfusion hk
          retErr := fun e hk => MainPc.noConfusion hk
          firstNat := fun hp _ => h.firstNat hp hr
          headNat := fun hp _ => h.headNat hp hr
          retNat := fun hp r e hk => MainPc.noConfusion hk }
    · simp at hs
  · simp at hs

theorem inv_check (cfg : Config) (s s' : State) (h : Inv cfg s)
    (hs : step cfg s Action.check = some s') : Inv cfg s' := by
  simp only [step] at hs
  split at hs
  · rename_i hm
    have hr : s.main.isReturned = false := by rw [hm]; rfl
    have hnl : ∀ i, s.main ≠ MainPc.loop i := by
      intro i hi
      rw [hm] at hi
      exact MainPc.noConfusion hi
    split at hs
    · rename_i hctx
      simp only [Option.some.injEq] at hs
      subst hs
      exact
        { h with
          loopLe := fun k hk => MainPc.noConfusion hk
          loopIdle := fun k j hk => MainPc.noConfusion hk
          loopBusy := fun k j hk => MainPc.noConfusion hk
          afterLoop := fun _ => h.afterLoop hnl
          chanLen := fun _ => h.chanLen hr
          ctxWhy := fun _ => h.ctxWhy hr
          recvCtx := fun _ => hctx
          retOk := fun r e hk => MainPc.noConfusion hk
          retErr := fun e hk => MainPc.noConfusion hk
          firstNat := fun hp _ => h.firstNat hp hr
          headNat := fun hp _ => h.headNat hp hr
          retNat := fun hp r e hk => MainPc.noConfusion hk }
    · rename_i hctx
      simp only [Option.some.injEq] at hs
      subst hs
      exact
        { h with
          loopLe := fun k hk => MainPc.noConfusion hk
          loopIdle := fun k j hk => MainPc.noConfusion hk
          loopBusy := fun k j hk => MainPc.noConfusion hk
          afterLoop := fun _ => h.afterLoop hnl
          chanLen := fun hk => Bool.noConfusion hk
          ctxOfCancel := fun _ _ _ _ => rfl
          ctxWhy := fun hk => Bool.noConfusion hk
          recvCtx := fun hk => MainPc.noConfusion hk
          retOk := by
            intro r e hk
            simp only [MainPc.returned.injEq, Option.some.injEq] at hk
            refine ⟨hk.2.symm, hk.1.symm, ?_⟩
            intro j pc hpc
            have h1 := h.afterLoop hnl j pc hpc
            have h2 := h.ctxOfCancel j pc hpc
            cases pc <;> simp_all
          retErr := by
            intro e hk
            simp at hk
          firstNat := fun _ hk => Bool.noConfusion hk
          headNat := fun _ hk => Bool.noConfusion hk
          retNat := by
            intro _ r e hk
            simp at hk }
  · simp at hs

theorem inv_recv (cfg : Config) (s s' : State) (h : Inv cfg s)
    (hs : step cfg s Action.recv = some s') : Inv cfg s' := by
  simp only [step] at hs
  split at hs
  · rename_i e rest hm hch
    have hr : s.main.isReturned = false := by rw [hm]; rfl
    have hnl : ∀ i, s.main ≠ MainPc.loop i := by
      intro i hi
      rw [hm] at hi
      exact MainPc.noConfusion hi
    simp only [Option.some.injEq] at hs
    subst hs
    exact
      { h with
        loopLe := fun k hk => MainPc.noConfusion hk
        loopIdle := fun k j hk => MainPc.noConfusion hk
        loopBusy := fun k j hk => MainPc.noConfusion hk
        afterLoop := fun _ => h.afterLoop hnl
        chanLen := fun hk => Bool.noConfusion hk
        ctxOfCancel := fun _ _ _ _ => rfl
        ctxWhy := fun hk => Bool.noConfusion hk
        recvCtx := fun hk => MainPc.noConfusion hk
        retOk := by
          intro r e hk
          simp at hk
        retErr := by
          intro e hk
          simp only [MainPc.returned.injEq, true_and] at hk
          rw [← hk]
          simp
        firstNat := fun _ hk => Bool.noConfusion hk
        headNat := fun _ hk => Bool.noConfusion hk
        retNat := by
          intro hp r e0 hk
          simp only [MainPc.returned.injEq, Option.some.injEq] at hk
          rw [← hk.2]
          exact h.headNat hp hr e rest hch }
  · simp at hs

theorem inv_parentCancel (cfg : Config) (s s' : State) (h : Inv cfg s)
    (hs : step cfg s Action.parentCancel = some s') : Inv cfg s' := by
  simp only [step] at hs
  split at hs
  · simp at hs
  · simp only [Option.some.injEq] at hs
    subst hs
    exact
      { h with
        ctxOfCancel := fun _ _ _ _ => rfl
        ctxWhy := fun _ _ => Or.inl rfl
        recvCtx := fun _ => rfl
        retOk := h.retOk
        firstNat := fun hk => Bool.noConfusion hk
        headNat := fun hk => Bool.noConfusion hk
        retNat := fun hk => Bool.noConfusion hk }

theorem inv_step (cfg : Config) (s s' : State) (a : Action) (h : Inv cfg s)
    (hs : step cfg s a = some s') : Inv cfg s' := by
  cases a with
  | spawn => exact inv_spawn cfg s s' h hs
  | fetch id => exact inv_fetch cfg s s' id h hs
  | abort id => exact inv_abort cfg s s' id h hs
  | send id => exact inv_send cfg s s' id h hs
  | cancel id => exact inv_cancel cfg s s' id h hs
  | store id => exact inv_store cfg s s' id h hs
  | done id => exact inv_done cfg s s' id h hs
  | wait => exact inv_wait cfg s s' h hs
  | check => exact inv_check cfg s s' h hs
  | recv => exact inv_recv cfg s s' h hs
  | parentCancel => exact inv_parentCancel cfg s s' h hs

theorem inv_run (cfg : Config) (acts : List Action) :
    ∀ (s s' : State), Inv cfg s → run cfg s acts = some s' → Inv cfg s' := by
  induction acts with
  | nil =>
    intro s s' h hr
    simp only [run, Option.some.injEq] at hr
    subst hr
    exact h
  | cons a rest ih =>
    intro s s' h hr
    simp only [run] at hr
    split at hr
    · rename_i s1 hs1
      exact ih s1 s' (inv_step cfg s s1 a h hs1) hr
    · simp at hr

theorem inv_exec (cfg : Config) (acts : List Action) (s : State)
    (h : getRandomSets cfg acts = some s) : Inv cfg s :=
  inv_run cfg acts (init cfg) s (inv_init cfg) h

theorem exists_pos_of_sum_pos {α : Type} (f : α → Nat) :
    ∀ (l : List α), 0 < (l.map f).sum → ∃ (j : Nat) (a : α), l[j]? = some a ∧ 0 < f a := by
  intro l
  induction l with
  | nil => intro h; simp at h
  | cons x xs ih =>
    intro h
    simp only [List.map_cons, List.sum_cons] at h
    by_cases hx : 0 < f x
    · exact ⟨0, x, by simp, hx⟩
    · obtain ⟨j, a, hj, ha⟩ := ih (by omega)
      exact ⟨j + 1, a, by simpa using hj, ha⟩

theorem sum_le_length {α : Type} (f : α → Nat) (hf : ∀ x, f x ≤ 1) :
    ∀ (l : List α), (l.map f).sum ≤ l.length := by
  intro l
  induction l with
  | nil => simp
  | cons x xs ih =>
    have := hf x
    simp only [List.map_cons, List.sum_cons, List.length_cons]
    omega

theorem sum_lt_length {α : Type} (f : α → Nat) (hf : ∀ x, f x ≤ 1) :
    ∀ (l : List α) (j : Nat) (a : α), l[j]? = some a → f a = 0 → (l.map f).sum < l.length := by
  intro l
  induction l with
  | nil => intro j a h; simp at h
  | cons x xs ih =>
    intro j a h ha
    cases j with
    | zero =>
      simp at h
      subst h
      have := sum_le_length f hf xs
      simp only [List.map_cons, List.sum_cons, List.length_cons]
      omega
    | succ k =>
      simp at h
      have := ih k a h ha
      have := hf x
      simp only [List.map_cons, List.sum_cons, List.length_cons]
      omega

theorem sentW_le_one (pc : TaskPc) : pc.sentW ≤ 1 := by
  cases pc <;> simp

theorem measure_step (cfg : Config) (s s' : State) (a : Action) (h : Inv cfg s)
    (hs : step cfg s a = some s') : measure s' < measure s := by
  cases a with
  | spawn =>
    simp only [step] at hs
    split at hs
    · rename_i i hm
      split at hs
      · rename_i hi
        simp only [Option.some.injEq] at hs
        subst hs
        have hpc := h.loopIdle i i hm (le_refl i) hi
        have hw := sum_map_set TaskPc.rank s.tasks i _ TaskPc.fetching hpc
        simp only [TaskPc.rank] at hw
        simp only [measure, hm, MainPc.rank]
        omega
      · simp at hs
    · simp at hs
  | fetch id =>
    simp only [step] at hs
    split at hs
    · rename_i hpc
      split at hs
      · rename_i r _
        simp only [Option.some.injEq] at hs
        subst hs
        have hw := sum_map_set TaskPc.rank s.tasks id _ (TaskPc.fetched r) hpc
        simp only [TaskPc.rank] at hw
        simp only [measure]
        omega
      · rename_i e _
        simp only [Option.some.injEq] at hs
        subst hs
        have hw := sum_map_set TaskPc.rank s.tasks id _ (TaskPc.failed (FetchErr.call e)) hpc
        simp only [TaskPc.rank] at hw
        simp only [measure]
        omega
    · simp at hs
  | abort id =>
    simp only [step] at hs
    split at hs
    · rename_i hpc
      split at hs
      · simp only [Option.some.injEq] at hs
        subst hs
        have hw := sum_map_set TaskPc.rank s.tasks id _ (TaskPc.failed FetchErr.canceled) hpc
        simp only [TaskPc.rank] at hw
        simp only [measure]
        omega
      · simp at hs
    · simp at hs
  | send id =>
    simp only [step] at hs
    split at hs
    · rename_i e hpc
      split at hs
      · simp only [Option.some.injEq] at hs
        subst hs
        have hw := sum_map_set TaskPc.rank s.tasks id _ (TaskPc.sent e) hpc
        simp only [TaskPc.rank] at hw
        simp only [measure]
        omega
      · simp at hs
    · simp at hs
  | cancel id =>
    simp only [step] at hs
    split at hs
    · rename_i e hpc
      simp only [Option.some.injEq] at hs
      subst hs
      have hw := sum_map_set TaskPc.rank s.tasks id _ (TaskPc.cancelled e) hpc
      simp only [TaskPc.rank] at hw
      simp only [measure]
      omega
    · simp at hs
  | store id =>
    simp only [step] at hs
    split at hs
    · rename_i r hpc
      simp only [Option.some.injEq] at hs
      subst hs
      have hw := sum_map_set TaskPc.rank s.tasks id _ (TaskPc.stored r) hpc
      simp only [TaskPc.rank] at hw
      simp only [measure]
      omega
    · simp at hs
  | done id =>
    simp only [step] at hs
    split at hs
    · rename_i e hpc
      split at hs
      · simp only [Option.some.injEq] at hs
        subst hs
        have hw := sum_map_set TaskPc.rank s.tasks id _ (TaskPc.doneErr e) hpc
        simp only [TaskPc.rank] at hw
        simp only [measure]
        omega
      · simp at hs
    · rename_i r hpc
      split at hs
      · simp only [Option.some.injEq] at hs
        subst hs
        have hw := sum_map_set TaskPc.rank s.tasks id _ (TaskPc.doneOk r) hpc
        simp only [TaskPc.rank] at hw
        simp only [measure]
        omega
      · simp at hs
    · simp at hs
  | wait =>
    simp only [step] at hs
    split at hs
    · rename_i i hm
      split at hs
      · simp only [Option.some.injEq] at hs
        subst hs
        simp only [measure, hm, MainPc.rank]
        omega
      · simp at hs
    · simp at hs
  | check =>
    simp only [step] at hs
    split at hs
    · rename_i hm
      split at hs
      all_goals
        simp only [Option.some.injEq] at hs
        subst hs
        simp only [measure, hm, MainPc.rank]
        omega
    · simp at hs
  | recv =>
    simp only [step] at hs
    split at hs
    · rename_i e rest hm hch
      simp only [Option.some.injEq] at hs
      subst hs
      simp only [measure, hm, MainPc.rank]
      omega
    · simp at hs
  | parentCancel =>
    simp only [step] at hs
    split at hs
    · simp at hs
    · rename_i hg
      simp only [Option.some.injEq] at hs
      subst hs
      have hp : s.parentDone = false := by
        cases hpd : s.parentDone
        · rfl
        · exact absurd (Or.inl hpd) hg
      simp only [measure, hp]
      simp

theorem run_length (cfg : Config) (acts : List Action) :
    ∀ (s s' : State), Inv cfg s → run cfg s acts = some s' →
      acts.length + measure s' ≤ measure s := by
  induction acts with
  | nil =>
    intro s s' h hr
    simp only [run, Option.some.injEq] at hr
    subst hr
    simp
  | cons a rest ih =>
    intro s s' h hr
    simp only [run] at hr
    split at hr
    · rename_i s1 hs1
      have h1 := ih s1 s' (inv_step cfg s s1 a h hs1) hr
      have h2 := measure_step cfg s s1 a h hs1
      simp only [List.length_cons]
      omega
    · simp at hr

theorem measure_init (cfg : Config) : measure (init cfg) ≤ 5 * cfg.setsCount + 4 := by
  have h1 : ∀ n : Nat, ((List.replicate n TaskPc.idle).map TaskPc.rank).sum = 5 * n := by
    intro n
    induction n with
    | zero => simp
    | succ k ih =>
      simp only [List.replicate_succ, List.map_cons, List.sum_cons, ih, TaskPc.rank]
      omega
  simp only [measure, init, h1, MainPc.rank]
  split <;> omega

theorem exec_length (cfg : Config) (acts : List Action) (s : State)
    (h : getRandomSets cfg acts = some s) : acts.length ≤ 5 * cfg.setsCount + 4 := by
  have h1 := run_length cfg acts (init cfg) s (inv_init cfg) h
  have h2 := measure_init cfg
  omega

theorem progress (cfg : Config) (s : State) (h : Inv cfg s)
    (hr : s.main.isReturned = false) (hb : s.main = MainPc.receiving → s.errorsChannel ≠ []) :
    ∃ (a : Action), a ≠ Action.parentCancel ∧ (step cfg s a).isSome = true := by
  cases hm : s.main with
  | loop i =>
    by_cases hi : i < cfg.setsCount
    · exact ⟨Action.spawn, by simp, by simp [step, hm, hi]⟩
    · by_cases hw : s.wg = 0
      · refine ⟨Action.wait, by simp, ?_⟩
        simp only [step, hm]
        rw [if_pos ⟨by omega, hw⟩]
        rfl
      · have hpos : 0 < (s.tasks.map TaskPc.active).sum := by
          have := h.wgEq
          omega
        obtain ⟨j, pc, hpc, hact⟩ := exists_pos_of_sum_pos TaskPc.active s.tasks hpos
        cases pc with
        | idle => simp at hact
        | fetching =>
          cases hf : cfg.getRandomsFromRandomOrg j cfg.setSize with
          | ok r => exact ⟨Action.fetch j, by simp, by simp [step, hpc, hf]⟩
          | fail e => exact ⟨Action.fetch j, by simp, by simp [step, hpc, hf]⟩
        | failed e =>
          have h1 := sum_lt_length TaskPc.sentW sentW_le_one s.tasks j _ hpc rfl
          have h2 := h.chanLen hr
          have h3 := h.lenTasks
          refine ⟨Action.send j, by simp, ?_⟩
          simp only [step, hpc]
          rw [if_pos (by omega)]
          rfl
        | sent e => exact ⟨Action.cancel j, by simp, by simp [step, hpc]⟩
        | cancelled e =>
          refine ⟨Action.done j, by simp, ?_⟩
          simp only [step, hpc]
          rw [if_pos (by omega)]
          rfl
        | fetched r => exact ⟨Action.store j, by simp, by simp [step, hpc]⟩
        | stored r =>
          refine ⟨Action.done j, by simp, ?_⟩
          simp only [step, hpc]
          rw [if_pos (by omega)]
          rfl
        | doneErr e => simp at hact
        | doneOk r => simp at hact
  | waited =>
    refine ⟨Action.check, by simp, ?_⟩
    simp only [step, hm]
    split <;> rfl
  | receiving =>
    cases hch : s.errorsChannel with
    | nil => exact absurd hch (hb hm)
    | cons e rest => exact ⟨Action.recv, by simp, by simp [step, hm, hch]⟩
  | returned r e =>
    rw [hm] at hr
    exact Bool.noConfusion hr


theorem task_at (cfg : Config) (s : State) (h : Inv cfg s) (j : Nat) (hj : j < cfg.setsCount) :
    ∃ pc, s.tasks[j]? = some pc := by
  have hlt : j < s.tasks.length := by rw [h.lenTasks]; exact hj
  exact ⟨s.tasks[j], List.getElem?_eq_getElem hlt⟩

theorem terminal (cfg : Config) (s : State) (h : Inv cfg s) (hr : s.main.isReturned = true)
    (a : Action) : step cfg s a = none := by
  have hnl : ∀ i, s.main ≠ MainPc.loop i := by
    intro i hi
    rw [hi] at hr
    exact Bool.noConfusion hr
  have hdone := h.afterLoop hnl
  cases hm : s.main with
  | loop i => exact absurd hm (hnl i)
  | waited => rw [hm] at hr; exact Bool.noConfusion hr
  | receiving => rw [hm] at hr; exact Bool.noConfusion hr
  | returned r e =>
    cases a with
    | spawn => simp [step, hm]
    | wait => simp [step, hm]
    | check => simp [step, hm]
    | recv => simp [step, hm]
    | parentCancel => simp [step, hr]
    | fetch id =>
      simp only [step]
      split
      · rename_i hpc
        have := hdone id _ hpc
        simp at this
      · rfl
    | abort id =>
      simp only [step]
      split
      · rename_i hpc
        have := hdone id _ hpc
        simp at this
      · rfl
    | send id =>
      simp only [step]
      split
      · rename_i hpc
        have := hdone id _ hpc
        simp at this
      · rfl
    | cancel id =>
      simp only [step]
      split
      · rename_i hpc
        have := hdone id _ hpc
        simp at this
      · rfl
    | store id =>
      simp only [step]
      split
      · rename_i hpc
        have := hdone id _ hpc
        simp at this
      · rfl
    | done id =>
      simp only [step]
      split
      · rename_i hpc
        have := hdone id _ hpc
        simp at this
      · rename_i hpc
        have := hdone id _ hpc
        simp at this
      · rfl

/-- A goroutine whose own call fails ends with an error, never with data. -/
theorem failing_task_done (cfg : Config) (s : State) (h : Inv cfg s) (j : Nat) (u : CallErr)
    (hj : j < cfg.setsCount) (hf : cfg.getRandomsFromRandomOrg j cfg.setSize = Outcome.fail u)
    (hnl : ∀ i, s.main ≠ MainPc.loop i) : ∃ e, s.tasks[j]? = some (TaskPc.doneErr e) := by
  obtain ⟨pc, hpc⟩ := task_at cfg s h j hj
  have hd := h.afterLoop hnl j pc hpc
  cases pc with
  | doneErr e => exact ⟨e, hpc⟩
  | doneOk d =>
    have := h.okNatural j _ d hpc rfl
    rw [hf] at this
    exact Outcome.noConfusion this
  | idle => simp at hd
  | fetching => simp at hd
  | failed e => simp at hd
  | sent e => simp at hd
  | cancelled e => simp at hd
  | fetched d => simp at hd
  | stored d => simp at hd

/-- When `getRandomSets` returns a list, every goroutine has stored the data
of its own call in its own slot. -/
theorem returned_slots (cfg : Config) (s : State) (h : Inv cfg s) (r : List (List Int))
    (e : Option FetchErr) (hm : s.main = MainPc.returned (some r) e) :
    e = none ∧ r.length = cfg.setsCount ∧
      ∀ j, j < cfg.setsCount → ∃ d, cfg.getRandomsFromRandomOrg j cfg.setSize = Outcome.ok d ∧
        s.tasks[j]? = some (TaskPc.doneOk d) ∧ r[j]? = some d := by
  obtain ⟨he, hr, hne⟩ := h.retOk r e hm
  have hnl : ∀ i, s.main ≠ MainPc.loop i := by
    intro i hi
    rw [hi] at hm
    exact MainPc.noConfusion hm
  refine ⟨he, by rw [hr]; exact h.lenSets, ?_⟩
  intro j hj
  obtain ⟨pc, hpc⟩ := task_at cfg s h j hj
  have hd := h.afterLoop hnl j pc hpc
  have hn := hne j pc hpc
  cases pc with
  | doneOk d =>
    refine ⟨d, h.okNatural j _ d hpc rfl, hpc, ?_⟩
    rw [hr]
    exact h.slots j d (Or.inr hpc)
  | doneErr e => simp at hn
  | idle => simp at hd
  | fetching => simp at hd
  | failed e => simp at hd
  | sent e => simp at hd
  | cancelled e => simp at hd
  | fetched d => simp at hd
  | stored d => simp at hd

/-- With a parent context that is not cancelled and calls that all return
data, no goroutine ever holds an error and the context stays alive. -/
theorem quiet (cfg : Config) (s : State) (h : Inv cfg s) (hp : s.parentDone = false)
    (hall : ∀ j, j < cfg.setsCount → ∃ d, cfg.getRandomsFromRandomOrg j cfg.setSize = Outcome.ok d) :
    (∀ (j : Nat) (pc : TaskPc), s.tasks[j]? = some pc → pc.err? = none) ∧
      (s.main.isReturned = false → s.ctxDone = false) ∧
      (∀ r e, s.main = MainPc.returned r e → e = none) := by
  have hno : ∀ (j : Nat) (pc : TaskPc) (e : FetchErr), s.tasks[j]? = some pc → pc.err? = some e →
      e = FetchErr.canceled := by
    intro j pc e hpc he
    rcases h.errOrigin j pc e hpc he with ⟨u, _, hf⟩ | hc
    · obtain ⟨d, hd⟩ := hall j (lt_of_getElem? cfg s j pc h hpc)
      rw [hd] at hf
      exact Outcome.noConfusion hf
    · exact hc
  cases hr : s.main.isReturned with
  | false =>
    have hch : s.errorsChannel = [] := by
      cases hc : s.errorsChannel with
      | nil => rfl
      | cons e rest =>
        obtain ⟨hne, j, pc, hpc, he⟩ := h.headNat hp hr e rest hc
        exact absurd (hno j pc e hpc he) hne
    have herr : ∀ (j : Nat) (pc : TaskPc), s.tasks[j]? = some pc → pc.err? = none := by
      intro j pc hpc
      cases he : pc.err? with
      | none => rfl
      | some e =>
        have h1 := hno j pc e hpc he
        have h2 := h.firstNat hp hr hch j pc hpc
        rw [he, h1] at h2
        exact absurd rfl h2
    refine ⟨herr, ?_, ?_⟩
    · intro _
      cases hd : s.ctxDone with
      | false => rfl
      | true =>
        rcases h.ctxWhy hr hd with h1 | ⟨j, pc, hpc, hc⟩
        · rw [hp] at h1
          exact Bool.noConfusion h1
        · have := herr j pc hpc
          cases pc <;> simp_all
    · intro r e hm
      rw [hm] at hr
      exact Bool.noConfusion hr
  | true =>
    have hret : ∀ r e, s.main = MainPc.returned r e → e = none := by
      intro r e hm
      cases e with
      | none => rfl
      | some e0 =>
        obtain ⟨hne, j, pc, hpc, he⟩ := h.retNat hp r e0 hm
        exact absurd (hno j pc e0 hpc he) hne
    refine ⟨?_, fun hx => Bool.noConfusion hx, hret⟩
    cases hm : s.main with
    | loop i => rw [hm] at hr; exact Bool.noConfusion hr
    | waited => rw [hm] at hr; exact Bool.noConfusion hr
    | receiving => rw [hm] at hr; exact Bool.noConfusion hr
    | returned r e =>
      have he := hret r e hm
      subst he
      cases r with
      | none => exact absurd rfl (h.retErr none hm)
      | some r0 => exact (h.retOk r0 none hm).2.2

theorem launchOrder_length (cfg : Config) : (launchOrder cfg).length = cfg.setsCount := by
  simp [launchOrder]

theorem launchOrder_get (cfg : Config) (j : Nat) (hj : j < cfg.setsCount) :
    (launchOrder cfg)[j]? = some (cfg.getRandomsFromRandomOrg j cfg.setSize).data := by
  simp [launchOrder, List.getElem?_map, List.getElem?_range hj]

/-- What one step does to the main goroutine and to the channel. -/
theorem step_effect (cfg : Config) (s s' : State) (a : Action) (hs : step cfg s a = some s')
    (hr : s.main.isReturned = false) :
    (s'.main.isReturned = false ∧ s'.errorsChannel = s.errorsChannel ++ sentBy s a) ∨
      (∃ e, s.errorsChannel = e :: s'.errorsChannel ∧ s'.main = MainPc.returned none (some e) ∧ sentBy s a = []) ∨
      (∃ r, s'.main = MainPc.returned (some r) none) := by
  cases a with
  | spawn =>
    left
    simp only [step] at hs
    split at hs
    · split at hs
      · simp only [Option.some.injEq] at hs
        subst hs
        exact ⟨rfl, by simp [sentBy]⟩
      · simp at hs
    · simp at hs
  | fetch id =>
    left
    simp only [step] at hs
    split at hs
    · split at hs
      all_goals
        simp only [Option.some.injEq] at hs
        subst hs
        exact ⟨hr, by simp [sentBy]⟩
    · simp at hs
  | abort id =>
    left
    simp only [step] at hs
    split at hs
    · split at hs
      · simp only [Option.some.injEq] at hs
        subst hs
        exact ⟨hr, by simp [sentBy]⟩
      · simp at hs
    · simp at hs
  | send id =>
    left
    simp only [step] at hs
    split at hs
    · rename_i e hpc
      split at hs
      · simp only [Option.some.injEq] at hs
        subst hs
        exact ⟨hr, by simp [sentBy, hpc]⟩
      · simp at hs
    · simp at hs
  | cancel id =>
    left
    simp only [step] at hs
    split at hs
    · simp only [Option.some.injEq] at hs
      subst hs
      exact ⟨hr, by simp [sentBy]⟩
    · simp at hs
  | store id =>
    left
    simp only [step] at hs
    split at hs
    · simp only [Option.some.injEq] at hs
      subst hs
      exact ⟨hr, by simp [sentBy]⟩
    · simp at hs
  | done id =>
    left
    simp only [step] at hs
    split at hs
    · split at hs
      · simp only [Option.some.injEq] at hs
        subst hs
        exact ⟨hr, by simp [sentBy]⟩
      · simp at hs
    · split at hs
      · simp only [Option.some.injEq] at hs
        subst hs
        exact ⟨hr, by simp [sentBy]⟩
      · simp at hs
    · simp at hs
  | wait =>
    left
    simp only [step] at hs
    split at hs
    · split at hs
      · simp only [Option.some.injEq] at hs
        subst hs
        exact ⟨rfl, by simp [sentBy]⟩
      · simp at hs
    · simp at hs
  | check =>
    simp only [step] at hs
    split at hs
    · split at hs
      · left
        simp only [Option.some.injEq] at hs
        subst hs
        exact ⟨rfl, by simp [sentBy]⟩
      · right
        right
        simp only [Option.some.injEq] at hs
        subst hs
        exact ⟨s.sets, rfl⟩
    · simp at hs
  | recv =>
    right
    left
    simp only [step] at hs
    split at hs
    · rename_i e rest hm hch
      simp only [Option.some.injEq] at hs
      subst hs
      exact ⟨e, hch, rfl, rfl⟩
    · simp at hs
  | parentCancel =>
    left
    simp only [step] at hs
    split at hs
    · simp at hs
    · simp only [Option.some.injEq] at hs
      subst hs
      exact ⟨hr, by simp [sentBy]⟩

theorem run_of_returned (cfg : Config) (s s' : State) (acts : List Action) (h : Inv cfg s)
    (hr : s.main.isReturned = true) (hrun : run cfg s acts = some s') : acts = [] ∧ s' = s := by
  cases acts with
  | nil =>
    simp only [run, Option.some.injEq] at hrun
    exact ⟨rfl, hrun.symm⟩
  | cons a rest =>
    simp only [run, terminal cfg s h hr a] at hrun
    exact Option.noConfusion hrun

/-- The channel is first-in first-out: until the receive of line 89 it holds
the captured errors in the order of the sends, and the receive takes the
oldest one and leaves the others. -/
theorem captured_run (cfg : Config) (acts : List Action) :
    ∀ (s s' : State), Inv cfg s → s.main.isReturned = false → run cfg s acts = some s' →
      (s'.main.isReturned = false → s'.errorsChannel = s.errorsChannel ++ captured cfg s acts) ∧
        (∀ r e, s'.main = MainPc.returned r (some e) →
          s.errorsChannel ++ captured cfg s acts = e :: s'.errorsChannel) := by
  induction acts with
  | nil =>
    intro s s' h hr hrun
    simp only [run, Option.some.injEq] at hrun
    subst hrun
    refine ⟨fun _ => by simp [captured], ?_⟩
    intro r e hm
    rw [hm] at hr
    exact Bool.noConfusion hr
  | cons a rest ih =>
    intro s s' h hr hrun
    simp only [run] at hrun
    split at hrun
    · rename_i s1 hs1
      have hinv1 := inv_step cfg s s1 a h hs1
      have hcap : captured cfg s (a :: rest) = sentBy s a ++ captured cfg s1 rest := by
        simp only [captured, hs1]
      rcases step_effect cfg s s1 a hs1 hr with ⟨hr1, hc1⟩ | ⟨e, hc1, hm1, hsb⟩ | ⟨r1, hm1⟩
      · obtain ⟨ih1, ih2⟩ := ih s1 s' hinv1 hr1 hrun
        rw [hcap, ← List.append_assoc, ← hc1]
        exact ⟨ih1, ih2⟩
      · have hret : s1.main.isReturned = true := by rw [hm1]; rfl
        obtain ⟨hrest, hs'⟩ := run_of_returned cfg s1 s' rest hinv1 hret hrun
        subst hrest
        subst hs'
        refine ⟨fun hx => ?_, ?_⟩
        · rw [hret] at hx
          exact Bool.noConfusion hx
        · intro r e0 hm
          rw [hm1] at hm
          simp only [MainPc.returned.injEq, Option.some.injEq] at hm
          rw [hcap, hsb, ← hm.2, hc1]
          simp [captured]
      · have hret : s1.main.isReturned = true := by rw [hm1]; rfl
        obtain ⟨hrest, hs'⟩ := run_of_returned cfg s1 s' rest hinv1 hret hrun
        subst hrest
        subst hs'
        refine ⟨fun hx => ?_, ?_⟩
        · rw [hret] at hx
          exact Bool.noConfusion hx
        · intro r e0 hm
          rw [hm1] at hm
          simp at hm
    · simp at hrun

/-- One step changes at most one program counter and keeps its error. -/
theorem step_tasks (cfg : Config) (s s' : State) (a : Action) (h : Inv cfg s)
    (hs : step cfg s a = some s') :
    s'.tasks = s.tasks ∨ ∃ (id : Nat) (pc pc' : TaskPc), s.tasks[id]? = some pc ∧
      s'.tasks = s.tasks.set id pc' ∧ (∀ e, pc.err? = some e → pc'.err? = some e) := by
  cases a with
  | spawn =>
    right
    simp only [step] at hs
    split at hs
    · rename_i i hm
      split at hs
      · rename_i hi
        simp only [Option.some.injEq] at hs
        subst hs
        exact ⟨i, TaskPc.idle, TaskPc.fetching, h.loopIdle i i hm (le_refl i) hi, rfl,
          fun e he => Option.noConfusion he⟩
      · simp at hs
    · simp at hs
  | fetch id =>
    right
    simp only [step] at hs
    split at hs
    · rename_i hpc
      split at hs
      all_goals
        simp only [Option.some.injEq] at hs
        subst hs
        exact ⟨id, _, _, hpc, rfl, fun e he => Option.noConfusion he⟩
    · simp at hs
  | abort id =>
    right
    simp only [step] at hs
    split at hs
    · rename_i hpc
      split at hs
      · simp only [Option.some.injEq] at hs
        subst hs
        exact ⟨id, _, _, hpc, rfl, fun e he => Option.noConfusion he⟩
      · simp at hs
    · simp at hs
  | send id =>
    right
    simp only [step] at hs
    split at hs
    · rename_i e hpc
      split at hs
      · simp only [Option.some.injEq] at hs
        subst hs
        exact ⟨id, _, _, hpc, rfl, fun e he => he⟩
      · simp at hs
    · simp at hs
  | cancel id =>
    right
    simp only [step] at hs
    split at hs
    · rename_i e hpc
      simp only [Option.some.injEq] at hs
      subst hs
      exact ⟨id, _, _, hpc, rfl, fun e he => he⟩
    · simp at hs
  | store id =>
    right
    simp only [step] at hs
    split at hs
    · rename_i r hpc
      simp only [Option.some.injEq] at hs
      subst hs
      exact ⟨id, _, _, hpc, rfl, fun e he => Option.noConfusion he⟩
    · simp at hs
  | done id =>
    right
    simp only [step] at hs
    split at hs
    · rename_i e hpc
      split at hs
      · simp only [Option.some.injEq] at hs
        subst hs
        exact ⟨id, _, _, hpc, rfl, fun e he => he⟩
      · simp at hs
    · rename_i r hpc
      split at hs
      · simp only [Option.some.injEq] at hs
        subst hs
        exact ⟨id, _, _, hpc, rfl, fun e he => Option.noConfusion he⟩
      · simp at hs
    · simp at hs
  | wait =>
    left
    simp only [step] at hs
    split at hs
    · split at hs
      · simp only [Option.some.injEq] at hs
        subst hs
        rfl
      · simp at hs
    · simp at hs
  | check =>
    left
    simp only [step] at hs
    split at hs
    · split at hs
      all_goals
        simp only [Option.some.injEq] at hs
        subst hs
        rfl
    · simp at hs
  | recv =>
    left
    simp only [step] at hs
    split at hs
    · simp only [Option.some.injEq] at hs
      subst hs
      rfl
    · simp at hs
  | parentCancel =>
    left
    simp only [step] at hs
    split at hs
    · simp at hs
    · simp only [Option.some.injEq] at hs
      subst hs
      rfl

theorem err_persist (cfg : Config) (s s' : State) (a : Action) (h : Inv cfg s)
    (hs : step cfg s a = some s') (k : Nat) (pc : TaskPc) (e : FetchErr)
    (hpc : s.tasks[k]? = some pc) (he : pc.err? = some e) :
    ∃ pc', s'.tasks[k]? = some pc' ∧ pc'.err? = some e := by
  rcases step_tasks cfg s s' a h hs with heq | ⟨id, q, q', hq, heq, hmono⟩
  · rw [heq]
    exact ⟨pc, hpc, he⟩
  · rw [heq]
    by_cases hid : id = k
    · subst hid
      rw [hpc] at hq
      have := Option.some.inj hq
      subst this
      refine ⟨q', ?_, hmono e he⟩
      rw [getElem?_set_some]
      left
      exact ⟨rfl, (List.getElem?_eq_some.mp hpc).1, rfl⟩
    · refine ⟨pc, ?_, he⟩
      rw [getElem?_set_some]
      exact Or.inr ⟨hid, hpc⟩

theorem abort_sets (cfg : Config) (s s' : State) (k : Nat)
    (hs : step cfg s (Action.abort k) = some s') :
    s'.tasks[k]? = some (TaskPc.failed FetchErr.canceled) := by
  simp only [step] at hs
  split at hs
  · rename_i hpc
    split at hs
    · simp only [Option.some.injEq] at hs
      subst hs
      show (s.tasks.set k _)[k]? = _
      rw [getElem?_set_some]
      left
      exact ⟨rfl, (List.getElem?_eq_some.mp hpc).1, rfl⟩
    · simp at hs
  · simp at hs

/-- A goroutine whose call was aborted holds the cancellation error from then
on. -/
theorem aborted_holds_canceled (cfg : Config) (k : Nat) (acts : List Action) :
    ∀ (s s' : State), Inv cfg s → run cfg s acts = some s' →
      (Action.abort k ∈ acts ∨
        ∃ pc, s.tasks[k]? = some pc ∧ pc.err? = some FetchErr.canceled) →
      ∃ pc, s'.tasks[k]? = some pc ∧ pc.err? = some FetchErr.canceled := by
  induction acts with
  | nil =>
    intro s s' h hrun hk
    simp only [run, Option.some.injEq] at hrun
    subst hrun
    rcases hk with hk | hk
    · simp at hk
    · exact hk
  | cons a rest ih =>
    intro s s' h hrun hk
    simp only [run] at hrun
    split at hrun
    · rename_i s1 hs1
      apply ih s1 s' (inv_step cfg s s1 a h hs1) hrun
      rcases hk with hk | ⟨pc, hpc, he⟩
      · rcases List.mem_cons.mp hk with hk | hk
        · subst hk
          exact Or.inr ⟨_, abort_sets cfg s s1 k hs1, rfl⟩
        · exact Or.inl hk
      · exact Or.inr (err_persist cfg s s1 a h hs1 k pc _ hpc he)
    · simp at hrun

/-- The only way `getRandomSets` can hang: it waits on line 89 with an empty
channel, which happens exactly when the parent context has been cancelled and
the call of every goroutine has succeeded. -/
theorem hang_only_by_parent (cfg : Config) (acts : List Action) (s : State)
    (h : getRandomSets cfg acts = some s) (hr : s.main.isReturned = false)
    (hstuck : ∀ a, a ≠ Action.parentCancel → step cfg s a = none) :
    s.main = MainPc.receiving ∧ s.errorsChannel = [] ∧ s.parentDone = true ∧
      ∀ (j : Nat) (pc : TaskPc), s.tasks[j]? = some pc → ∃ d, pc = TaskPc.doneOk d := by
  have hinv := inv_exec cfg acts s h
  have hrecv : s.main = MainPc.receiving ∧ s.errorsChannel = [] := by
    by_contra hcon
    have hb : s.main = MainPc.receiving → s.errorsChannel ≠ [] := fun hm hc => hcon ⟨hm, hc⟩
    obtain ⟨a, ha, hen⟩ := progress cfg s hinv hr hb
    rw [hstuck a ha] at hen
    exact Bool.noConfusion hen
  obtain ⟨hm, hch⟩ := hrecv
  have hlen := hinv.chanLen hr
  rw [hch] at hlen
  have hnosent : ∀ (j : Nat) (pc : TaskPc), s.tasks[j]? = some pc → pc.sentW = 0 := by
    intro j pc hpc
    have := le_sum_map TaskPc.sentW s.tasks j pc hpc
    simp at hlen
    omega
  have hnl : ∀ i, s.main ≠ MainPc.loop i := by
    intro i hi
    rw [hi] at hm
    exact MainPc.noConfusion hm
  refine ⟨hm, hch, ?_, ?_⟩
  · rcases hinv.ctxWhy hr (hinv.recvCtx hm) with hp | ⟨j, pc, hpc, hc⟩
    · exact hp
    · have h2 := hnosent j pc hpc
      cases pc with
      | cancelled e => simp at h2
      | doneErr e => simp at h2
      | idle => simp at hc
      | fetching => simp at hc
      | failed e => simp at hc
      | sent e => simp at hc
      | fetched d => simp at hc
      | stored d => simp at hc
      | doneOk d => simp at hc
  · intro j pc hpc
    have h1 := hinv.afterLoop hnl j pc hpc
    have h2 := hnosent j pc hpc
    cases pc with
    | doneOk d => exact ⟨d, rfl⟩
    | doneErr e => simp at h2
    | idle => simp at h1
    | fetching => simp at h1
    | failed e => simp at h1
    | sent e => simp at h1
    | cancelled e => simp at h1
    | fetched d => simp at h1
    | stored d => simp at h1

/-! ## calculateResults: proofs -/

theorem calculateLoop_union (sets : List (List Int)) :
    ∀ (i : Nat) (results : List resultItem) (union : List Int),
      (calculateLoop sets i results union).2 = union ++ sets.flatten := by
  induction sets with
  | nil => intro i results union; simp [calculateLoop]
  | cons set rest ih =>
    intro i results union
    simp only [calculateLoop, ih, List.flatten_cons, List.append_assoc]

theorem calculateLoop_length (sets : List (List Int)) :
    ∀ (i : Nat) (results : List resultItem) (union : List Int),
      (calculateLoop sets i results union).1.length = results.length := by
  induction sets with
  | nil => intro i results union; simp [calculateLoop]
  | cons set rest ih =>
    intro i results union
    simp only [calculateLoop, ih, List.length_set]

theorem calculateLoop_below (sets : List (List Int)) :
    ∀ (i : Nat) (results : List resultItem) (union : List Int) (j : Nat), j < i →
      (calculateLoop sets i results union).1[j]? = results[j]? := by
  induction sets with
  | nil => intro i results union j _; simp [calculateLoop]
  | cons set rest ih =>
    intro i results union j hj
    simp only [calculateLoop]
    rw [ih (i + 1) _ _ j (by omega), List.getElem?_set_ne (by omega)]

theorem calculateLoop_above (sets : List (List Int)) :
    ∀ (i : Nat) (results : List resultItem) (union : List Int) (j : Nat),
      i + sets.length ≤ j → (calculateLoop sets i results union).1[j]? = results[j]? := by
  induction sets with
  | nil => intro i results union j _; simp [calculateLoop]
  | cons set rest ih =>
    intro i results union j hj
    simp only [List.length_cons] at hj
    simp only [calculateLoop]
    rw [ih (i + 1) _ _ j (by omega), List.getElem?_set_ne (by omega)]

theorem calculateLoop_at (sets : List (List Int)) :
    ∀ (i : Nat) (results : List resultItem) (union : List Int) (k : Nat) (set : List Int),
      sets[k]? = some set → i + k < results.length →
      (calculateLoop sets i results union).1[i + k]? = some ⟨set, stdDev set⟩ := by
  induction sets with
  | nil => intro i results union k set h; simp at h
  | cons x rest ih =>
    intro i results union k set h hlt
    simp only [calculateLoop]
    cases k with
    | zero =>
      simp only [List.getElem?_cons_zero, Option.some.injEq] at h
      subst h
      simp only [Nat.add_zero] at hlt ⊢
      rw [calculateLoop_below rest (i + 1) _ _ i (by omega)]
      exact List.getElem?_set_self hlt
    | succ k =>
      simp only [List.getElem?_cons_succ] at h
      have := ih (i + 1) (results.set i ⟨x, stdDev x⟩) (union ++ x) k set h
        (by rw [List.length_set]; omega)
      rw [show i + (k + 1) = i + 1 + k by omega]
      exact this

theorem calculateResults_length (sets : List (List Int)) :
    (calculateResults sets).length = sets.length + 1 := by
  simp [calculateResults, calculateLoop_length]

theorem calculateResults_entry (sets : List (List Int)) (i : Nat) (set : List Int)
    (h : sets[i]? = some set) : (calculateResults sets)[i]? = some ⟨set, stdDev set⟩ := by
  have hi : i < sets.length := (List.getElem?_eq_some.mp h).1
  simp only [calculateResults]
  rw [List.getElem?_set_ne (by omega)]
  have := calculateLoop_at sets 0 (List.replicate (sets.length + 1) ⟨[], F64.zero⟩) [] i set h
    (by simp; omega)
  simpa using this

theorem calculateResults_last (sets : List (List Int)) :
    (calculateResults sets)[sets.length]? = some ⟨sets.flatten, stdDev sets.flatten⟩ := by
  simp only [calculateResults, calculateLoop_union, List.nil_append, Nat.add_sub_cancel]
  exact List.getElem?_set_self (by simp [calculateLoop_length])

/-! ## stdDev: proofs -/

theorem wrap64_emod (x : Int) : wrap64 x % 2 ^ 64 = x % 2 ^ 64 := by
  unfold wrap64
  omega

theorem wrap64_of_range (x : Int) (h1 : -2 ^ 63 ≤ x) (h2 : x < 2 ^ 63) : wrap64 x = x := by
  unfold wrap64
  omega

theorem foldl_wrap64 (set : List Int) :
    ∀ (acc : Int), (set.foldl (fun sum value => wrap64 (sum + value)) acc) % 2 ^ 64 =
      (acc + set.sum) % 2 ^ 64 := by
  induction set with
  | nil => intro acc; simp
  | cons x xs ih =>
    intro acc
    simp only [List.foldl_cons, List.sum_cons, ih]
    have := wrap64_emod (acc + x)
    omega

theorem foldl_wrap64_range (set : List Int) :
    ∀ (acc : Int), -2 ^ 63 ≤ acc → acc < 2 ^ 63 →
      -2 ^ 63 ≤ set.foldl (fun sum value => wrap64 (sum + value)) acc ∧
        set.foldl (fun sum value => wrap64 (sum + value)) acc < 2 ^ 63 := by
  induction set with
  | nil => intro acc h1 h2; exact ⟨h1, h2⟩
  | cons x xs ih =>
    intro acc _ _
    simp only [List.foldl_cons]
    apply ih
    · unfold wrap64; omega
    · unfold wrap64; omega

/-- The `int` sum of `stdDev` is the exact sum, wrapped once. -/
theorem intSum_eq_wrap (set : List Int) : intSum set = wrap64 set.sum := by
  have h1 := foldl_wrap64 set 0
  have h2 := foldl_wrap64_range set 0 (by norm_num) (by norm_num)
  simp only [Int.zero_add] at h1
  unfold intSum
  generalize set.foldl (fun sum value => wrap64 (sum + value)) 0 = y at h1 h2
  unfold wrap64
  omega

theorem intSum_of_range (set : List Int) (h1 : -2 ^ 63 ≤ set.sum) (h2 : set.sum < 2 ^ 63) :
    intSum set = set.sum := by
  rw [intSum_eq_wrap, wrap64_of_range _ h1 h2]

theorem intSum_perm (P S : List Int) (h : P.Perm S) : intSum P = intSum S := by
  rw [intSum_eq_wrap, intSum_eq_wrap, h.sum_eq]

theorem stdDev_eq_population (S : List Int) (h : intSum S = S.sum) :
    stdDev S = populationStdDev S := by
  simp only [stdDev, populationStdDev, h, List.foldl_map]

theorem stdDev_eq_acc (set : List Int) :
    stdDev set = F64.sqrt (F64.div (accOf set) (F64.ofInt (set.length : Int))) := by
  simp only [stdDev, accOf, sqDevs, meanOf, List.foldl_map]

/-! ## float64: proofs -/

namespace F64

theorem bitsAux_spec : ∀ (fuel n : Nat), n ≤ fuel →
    (n = 0 → bitsAux fuel n = 0) ∧
      (n ≠ 0 → 2 ^ (bitsAux fuel n - 1) ≤ n ∧ n < 2 ^ bitsAux fuel n ∧ 0 < bitsAux fuel n) := by
  intro fuel
  induction fuel with
  | zero =>
    intro n hn
    have : n = 0 := by omega
    subst this
    simp [bitsAux]
  | succ k ih =>
    intro n hn
    by_cases h0 : n = 0
    · subst h0
      simp [bitsAux]
    · refine ⟨fun h => absurd h h0, fun _ => ?_⟩
      simp only [bitsAux, h0, if_false]
      have hle : n / 2 ≤ k := by omega
      obtain ⟨ih0, ih1⟩ := ih (n / 2) hle
      by_cases h1 : n / 2 = 0
      · rw [ih0 h1]
        have : n = 1 := by omega
        subst this
        simp
      · obtain ⟨hlo, hhi, hpos⟩ := ih1 h1
        refine ⟨?_, ?_, by omega⟩
        · rw [Nat.add_sub_cancel]
          have : 2 ^ bitsAux k (n / 2) = 2 ^ (bitsAux k (n / 2) - 1) * 2 := by
            rw [← Nat.pow_succ]
            congr 1
            omega
          omega
        · rw [Nat.pow_succ]
          omega

theorem bitLength_zero : bitLength 0 = 0 := by
  simp [bitLength, bitsAux]

theorem bitLength_pos (n : Nat) (h : n ≠ 0) : 0 < bitLength n :=
  ((bitsAux_spec n n (le_refl n)).2 h).2.2

theorem bitLength_lower (n : Nat) (h : n ≠ 0) : 2 ^ (bitLength n - 1) ≤ n :=
  ((bitsAux_spec n n (le_refl n)).2 h).1

theorem bitLength_upper (n : Nat) : n < 2 ^ bitLength n := by
  by_cases h : n = 0
  · subst h
    simp
  · exact ((bitsAux_spec n n (le_refl n)).2 h).2.1

theorem roundShift_bounds (M sh : Nat) (sticky : Bool) :
    M / 2 ^ sh ≤ roundShift M sh sticky ∧ roundShift M sh sticky ≤ M / 2 ^ sh + 1 := by
  unfold roundShift
  simp only
  split
  · omega
  · split <;> omega

/-- The quotient that `roundShift` returns is a nearest one, and an even one
when two are nearest. -/
theorem roundShift_nearest (M sh : Nat) (hsh : 0 < sh) :
    2 * (roundShift M sh false * 2 ^ sh) ≤ 2 * M + 2 ^ sh ∧
      2 * M ≤ 2 * (roundShift M sh false * 2 ^ sh) + 2 ^ sh ∧
      ((2 * (roundShift M sh false * 2 ^ sh) = 2 * M + 2 ^ sh ∨
          2 * M = 2 * (roundShift M sh false * 2 ^ sh) + 2 ^ sh) →
        roundShift M sh false % 2 = 0) := by
  have hP : 2 ^ sh = 2 * 2 ^ (sh - 1) := by
    rw [← Nat.pow_succ']
    congr 1
    omega
  have hdiv := Nat.div_add_mod M (2 ^ sh)
  have hmod := Nat.mod_lt M (Nat.pow_pos (by norm_num : 0 < 2) : 0 < 2 ^ sh)
  unfold roundShift
  simp only [Bool.false_eq_true, false_or]
  rw [if_neg (by omega)]
  generalize M / 2 ^ sh = q at hdiv
  generalize M % 2 ^ sh = r at hdiv hmod
  generalize 2 ^ (sh - 1) = half at hP
  generalize 2 ^ sh = P at hP hdiv hmod
  have hqP : P * q = q * P := Nat.mul_comm _ _
  have hq1 : (q + 1) * P = q * P + P := Nat.add_mul _ _ _ |>.trans (by rw [Nat.one_mul])
  split
  · rename_i hup
    rw [hq1]
    generalize q * P = X at hqP hdiv
    omega
  · rename_i hup
    generalize q * P = X at hqP hdiv
    omega

theorem isqrtBits_spec (n : Nat) : ∀ (i r : Nat), r * r ≤ n → n < (r + 2 ^ i) * (r + 2 ^ i) →
    isqrtBits n i r * isqrtBits n i r ≤ n ∧
      n < (isqrtBits n i r + 1) * (isqrtBits n i r + 1) := by
  intro i
  induction i with
  | zero =>
    intro r h1 h2
    simpa [isqrtBits] using And.intro h1 h2
  | succ k ih =>
    intro r h1 h2
    simp only [isqrtBits]
    split
    · rename_i hc
      apply ih _ hc
      have : r + 2 ^ k + 2 ^ k = r + 2 ^ (k + 1) := by
        rw [Nat.pow_succ]
        omega
      rw [this]
      exact h2
    · rename_i hc
      exact ih r h1 (by omega)

/-- The function `isqrt` returns the integer part of the square root. -/
theorem isqrt_spec (n : Nat) : isqrt n * isqrt n ≤ n ∧ n < (isqrt n + 1) * (isqrt n + 1) := by
  unfold isqrt
  apply isqrtBits_spec n _ 0 (by simp)
  have h1 := bitLength_upper n
  have h2 : 2 ^ bitLength n ≤ 2 ^ (bitLength n / 2 + 1) * 2 ^ (bitLength n / 2 + 1) := by
    rw [← Nat.pow_add]
    exact Nat.pow_le_pow_right (by norm_num) (by omega)
  simp only [Nat.zero_add]
  omega

theorem pow_split (a b c : Nat) (h : a + b = c) : 2 ^ a * 2 ^ b = 2 ^ c := by
  rw [← Nat.pow_add, h]

theorem round_good (s : Bool) (M : Nat) (E : Int) (sticky : Bool) :
    round s M E sticky = inf s ∨
      ∃ m e, round s M E sticky = fin s m e ∧ Canonical (fin s m e) := by
  unfold round
  by_cases hM : M = 0
  · right
    exact ⟨0, -1074, by simp [hM], by simp [Canonical]⟩
  · simp only [hM, if_false]
    have hb0 := bitLength_pos M hM
    have hb1 := bitLength_lower M hM
    have hb2 := bitLength_upper M
    generalize bitLength M = b at hb0 hb1 hb2
    have he1 : E + (b : Int) - 53 ≤ max (E + (b : Int) - 53) (-1074) := le_max_left _ _
    have he2 : -1074 ≤ max (E + (b : Int) - 53) (-1074) := le_max_right _ _
    have he3 : max (E + (b : Int) - 53) (-1074) = E + (b : Int) - 53 ∨
        max (E + (b : Int) - 53) (-1074) = -1074 := by
      rcases le_total (E + (b : Int) - 53) (-1074) with h | h
      · exact Or.inr (max_eq_right h)
      · exact Or.inl (max_eq_left h)
    generalize max (E + (b : Int) - 53) (-1074) = e at he1 he2 he3
    by_cases hle : e ≤ E
    · simp only [hle, if_true]
      by_cases hov : 971 < e
      · left
        simp [hov]
      · right
        refine ⟨M * 2 ^ (E - e).toNat, e, by simp [hov], ?_⟩
        have hk : ((E - e).toNat : Int) = E - e := Int.toNat_of_nonneg (by omega)
        generalize (E - e).toNat = k at hk
        have hbk : b + k ≤ 53 := by omega
        have h53 : 2 ^ b * 2 ^ k ≤ 2 ^ 53 := by
          rw [← Nat.pow_add]
          exact Nat.pow_le_pow_right (by norm_num) hbk
        have hlt : M * 2 ^ k < 2 ^ b * 2 ^ k :=
          Nat.mul_lt_mul_of_pos_right hb2 (Nat.pow_pos (by norm_num))
        refine ⟨lt_of_lt_of_le hlt h53, he2, by omega, ?_⟩
        rcases he3 with h3 | h3
        · left
          have hbk2 : (b - 1) + k = 52 := by omega
          have h52 : 2 ^ (b - 1) * 2 ^ k = 2 ^ 52 := pow_split _ _ _ hbk2
          rw [← h52]
          exact Nat.mul_le_mul_right _ hb1
        · exact Or.inr h3
    · simp only [hle, if_false]
      have hsh : ((e - E).toNat : Int) = e - E := Int.toNat_of_nonneg (by omega)
      generalize (e - E).toNat = sh at hsh
      obtain ⟨hq1, hq2⟩ := roundShift_bounds M sh sticky
      generalize roundShift M sh sticky = m at hq1 hq2
      have hbs : b ≤ 53 + sh := by omega
      have hqlt : M / 2 ^ sh < 2 ^ 53 := by
        rw [Nat.div_lt_iff_lt_mul (Nat.pow_pos (by norm_num))]
        have : 2 ^ b ≤ 2 ^ 53 * 2 ^ sh := by
          rw [← Nat.pow_add]
          exact Nat.pow_le_pow_right (by norm_num) hbs
        omega
      by_cases hm : m = 2 ^ 53
      · simp only [hm, if_true]
        by_cases hov : 971 < e + 1
        · left
          simp [hov]
        · right
          refine ⟨2 ^ 52, e + 1, by simp [hov], ?_⟩
          exact ⟨by norm_num, by omega, by omega, Or.inl (le_refl _)⟩
      · simp only [hm, if_false]
        by_cases hov : 971 < e
        · left
          simp [hov]
        · right
          refine ⟨m, e, by simp [hov], ?_⟩
          refine ⟨by omega, he2, by omega, ?_⟩
          rcases he3 with h3 | h3
          · left
            have hbk2 : 52 + sh = b - 1 := by omega
            have h52 : 2 ^ 52 * 2 ^ sh = 2 ^ (b - 1) := pow_split _ _ _ hbk2
            have : 2 ^ 52 ≤ M / 2 ^ sh := by
              rw [Nat.le_div_iff_mul_le (Nat.pow_pos (by norm_num)), h52]
              exact hb1
            omega
          · exact Or.inr h3

theorem good_zero : Good zero := by
  simp [Good, zero, Canonical]

theorem good_of_round (M : Nat) (E : Int) (sticky : Bool) : Good (round false M E sticky) := by
  rcases round_good false M E sticky with h | ⟨m, e, h, hc⟩
  · rw [h]
    rfl
  · rw [h]
    exact ⟨rfl, hc⟩

theorem good_powTwo (x : F64) : Good (powTwo x) := by
  cases x with
  | nan => trivial
  | inf s => rfl
  | fin s m e =>
    simp only [powTwo]
    split
    · simp [Good, Canonical]
    · split
      · exact good_of_round _ _ _
      · exact good_of_round _ _ _

theorem good_add (x y : F64) (hx : Good x) (hy : Good y) : Good (add x y) := by
  cases x with
  | nan => cases y <;> trivial
  | inf s =>
    cases y with
    | nan => trivial
    | inf t =>
      simp only [Good] at hx hy
      subst hx
      subst hy
      simp [add, Good]
    | fin t n f =>
      simp only [Good] at hx
      subst hx
      simp [add, Good]
  | fin s m e =>
    cases y with
    | nan => trivial
    | inf t =>
      simp only [Good] at hy
      subst hy
      simp [add, Good]
    | fin t n f =>
      obtain ⟨hs, _⟩ := hx
      obtain ⟨ht, _⟩ := hy
      subst hs
      subst ht
      simp only [add, Bool.false_eq_true, if_false, one_mul]
      split
      · simp [Good, Canonical]
      · have hnn : ¬ (((m * 2 ^ (e - min e f).toNat : Nat) : Int) +
            ((n * 2 ^ (f - min e f).toNat : Nat) : Int) < 0) := by
          have h1 : (0 : Int) ≤ ((m * 2 ^ (e - min e f).toNat : Nat) : Int) := Int.ofNat_nonneg _
          have h2 : (0 : Int) ≤ ((n * 2 ^ (f - min e f).toNat : Nat) : Int) := Int.ofNat_nonneg _
          omega
        rw [decide_eq_false hnn]
        exact good_of_round _ _ _

theorem good_foldl (l : List F64) :
    ∀ (acc : F64), Good acc → (∀ t, t ∈ l → Good t) → Good (l.foldl add acc) := by
  induction l with
  | nil => intro acc h _; exact h
  | cons x xs ih =>
    intro acc h hl
    simp only [List.foldl_cons]
    exact ih _ (good_add acc x h (hl x (List.mem_cons_self _ _)))
      (fun t ht => hl t (List.mem_cons_of_mem _ ht))

/-- Two stored values that are not negative and denote the same number are
the same `float64`. -/
theorem good_units_inj (x y : F64) (hx : Good x) (hy : Good y) (u : Int)
    (hux : units x = some u) (huy : units y = some u) : x = y := by
  cases x with
  | nan => simp [units] at hux
  | inf s => simp [units] at hux
  | fin s m e =>
    cases y with
    | nan => simp [units] at huy
    | inf t => simp [units] at huy
    | fin t n f =>
      obtain ⟨hs, hm1, he1, _, hm2⟩ := hx
      obtain ⟨ht, hn1, hf1, _, hn2⟩ := hy
      subst hs
      subst ht
      simp only [units, he1, hf1, if_true, Bool.false_eq_true, if_false, one_mul,
        Option.some.injEq] at hux huy
      have ha : ((e + 1074).toNat : Int) = e + 1074 := Int.toNat_of_nonneg (by omega)
      have hb : ((f + 1074).toNat : Int) = f + 1074 := Int.toNat_of_nonneg (by omega)
      generalize (e + 1074).toNat = a at ha hux
      generalize (f + 1074).toNat = b at hb huy
      have heq : m * 2 ^ a = n * 2 ^ b := by
        have : ((m * 2 ^ a : Nat) : Int) = ((n * 2 ^ b : Nat) : Int) := by rw [hux, huy]
        exact_mod_cast this
      have key : ∀ (m n a b : Nat), m * 2 ^ a = n * 2 ^ b → a < b → n < 2 ^ 53 → m < 2 ^ 53 →
          (2 ^ 52 ≤ n ∨ b = 0) → False := by
        intro m n a b h hab _ hm hn
        obtain ⟨d, hd⟩ : ∃ d, b = a + (d + 1) := ⟨b - a - 1, by omega⟩
        rw [hd, Nat.pow_add, ← Nat.mul_assoc] at h
        have h2 : m = n * 2 ^ (d + 1) := by
          have hpos : 0 < 2 ^ a := Nat.pow_pos (by norm_num)
          have := Nat.eq_of_mul_eq_mul_right hpos (by rw [h, Nat.mul_right_comm])
          rw [this, Nat.mul_right_comm] at *
          exact Nat.eq_of_mul_eq_mul_right hpos (by simpa [Nat.mul_assoc, Nat.mul_comm] using h)
        have h3 : 2 ≤ 2 ^ (d + 1) := by
          rw [Nat.pow_succ]
          have : 0 < 2 ^ d := Nat.pow_pos (by norm_num)
          omega
        have h4 : n * 2 ≤ n * 2 ^ (d + 1) := Nat.mul_le_mul_left _ h3
        rcases hn with hn | hn
        · omega
        · omega
      rcases Nat.lt_trichotomy a b with hab | hab | hab
      · exfalso
        refine key m n a b heq hab hn1 hm1 ?_
        rcases hn2 with h | h
        · exact Or.inl h
        · right
          omega
      · subst hab
        have hpos : 0 < 2 ^ a := Nat.pow_pos (by norm_num)
        have hmn : m = n := Nat.eq_of_mul_eq_mul_right hpos heq
        have hef : e = f := by omega
        rw [hmn, hef]
      · exfalso
        refine key n m b a heq.symm hab hm1 hn1 ?_
        rcases hm2 with h | h
        · exact Or.inl h
        · right
          omega

theorem unitsSum_perm (l1 l2 : List F64) (h : l1.Perm l2) : unitsSum l1 = unitsSum l2 := by
  induction h with
  | nil => rfl
  | cons x _ ih => simp only [unitsSum, ih]
  | swap x y l =>
    simp only [unitsSum]
    cases units x <;> cases units y <;> cases unitsSum l <;> simp
    omega
  | trans _ _ ih1 ih2 => exact ih1.trans ih2

/-- Rounding leaves a stored value as it is. -/
theorem round_of_canonical (s : Bool) (m : Nat) (e : Int) (hc : Canonical (fin s m e)) :
    round s m e false = fin s m e := by
  obtain ⟨hm, he1, he2, hn⟩ := hc
  unfold round
  by_cases h0 : m = 0
  · subst h0
    rcases hn with h | h
    · omega
    · simp [h]
  · simp only [h0, if_false]
    have hb1 := bitLength_lower m h0
    have hb2 := bitLength_upper m
    have hb0 := bitLength_pos m h0
    generalize bitLength m = b at hb0 hb1 hb2
    have hb53 : b ≤ 53 := by
      by_contra hcon
      have : 2 ^ 53 ≤ 2 ^ (b - 1) := Nat.pow_le_pow_right (by norm_num) (by omega)
      omega
    have hmax : max (e + (b : Int) - 53) (-1074) = e := by
      rcases hn with h | h
      · have hb : b = 53 := by
          by_contra hcon
          have : 2 ^ b ≤ 2 ^ 52 := Nat.pow_le_pow_right (by norm_num) (by omega)
          omega
        subst hb
        rw [max_eq_left (by omega)]
        omega
      · subst h
        rw [max_eq_right (by omega)]
    rw [hmax]
    simp only [le_refl, if_true, sub_self, Int.toNat_zero, pow_zero, mul_one]
    rw [if_neg (by omega)]

end F64

/-! ## stdDev: order of the input -/

theorem meanOf_perm (P S : List Int) (h : P.Perm S) : meanOf P = meanOf S := by
  simp only [meanOf, intSum_perm P S h, h.length_eq]

theorem sqDevs_perm (P S : List Int) (h : P.Perm S) : (sqDevs P).Perm (sqDevs S) := by
  simp only [sqDevs, meanOf_perm P S h]
  exact h.map _

theorem good_accOf (set : List Int) : F64.Good (accOf set) := by
  apply F64.good_foldl _ _ F64.good_zero
  intro t ht
  simp only [sqDevs, List.mem_map] at ht
  obtain ⟨v, _, hv⟩ := ht
  rw [← hv]
  exact F64.good_powTwo _

theorem accOf_perm_exact (P S : List Int) (h : P.Perm S) (hS : accExact S) (hP : accExact P) :
    accOf P = accOf S := by
  obtain ⟨hS1, hS2⟩ := hS
  obtain ⟨_, hP2⟩ := hP
  obtain ⟨u, hu⟩ := Option.isSome_iff_exists.mp hS1
  have hsum := F64.unitsSum_perm _ _ (sqDevs_perm P S h)
  have huP : F64.units (accOf P) = some u := by rw [hP2, hsum, ← hS2, hu]
  exact F64.good_units_inj _ _ (good_accOf P) (good_accOf S) u huP hu

theorem stdDev_perm_exact (P S : List Int) (h : P.Perm S) (hS : accExact S) (hP : accExact P) :
    stdDev P = stdDev S := by
  rw [stdDev_eq_acc, stdDev_eq_acc, accOf_perm_exact P S h hS hP, h.length_eq]

/-! ## float64: exact operations on small integers -/

namespace F64

theorem bitLength_unique (n b : Nat) (h0 : 0 < b) (h1 : 2 ^ (b - 1) ≤ n) (h2 : n < 2 ^ b) :
    bitLength n = b := by
  have hn : n ≠ 0 := by
    have : 0 < 2 ^ (b - 1) := Nat.pow_pos (by norm_num)
    omega
  have c0 := bitLength_pos n hn
  have c1 := bitLength_lower n hn
  have c2 := bitLength_upper n
  generalize bitLength n = c at c0 c1 c2
  rcases Nat.lt_trichotomy b c with h | h | h
  · have : 2 ^ b ≤ 2 ^ (c - 1) := Nat.pow_le_pow_right (by norm_num) (by omega)
    omega
  · exact h.symm
  · have : 2 ^ c ≤ 2 ^ (b - 1) := Nat.pow_le_pow_right (by norm_num) (by omega)
    omega

theorem bitLength_mul_pow (n j : Nat) (hn : n ≠ 0) :
    bitLength (n * 2 ^ j) = bitLength n + j := by
  have c0 := bitLength_pos n hn
  have c1 := bitLength_lower n hn
  have c2 := bitLength_upper n
  apply bitLength_unique
  · omega
  · have : 2 ^ (bitLength n + j - 1) = 2 ^ (bitLength n - 1) * 2 ^ j := by
      rw [← Nat.pow_add]
      congr 1
      omega
    rw [this]
    exact Nat.mul_le_mul_right _ c1
  · rw [Nat.pow_add]
    exact Nat.mul_lt_mul_of_pos_right c2 (Nat.pow_pos (by norm_num))

theorem bitLength_le_of_lt (n : Nat) (h : n < 2 ^ 53) : bitLength n ≤ 53 := by
  by_cases hn : n = 0
  · subst hn
    rw [bitLength_zero]
    omega
  · have c1 := bitLength_lower n hn
    by_contra hcon
    have : 2 ^ 53 ≤ 2 ^ (bitLength n - 1) := Nat.pow_le_pow_right (by norm_num) (by omega)
    omega

/-- The stored form of a natural number below `2^53`. -/
theorem round_nat (s : Bool) (K : Nat) (hK0 : K ≠ 0) (hK : K < 2 ^ 53) :
    round s K 0 false = fin s (K * 2 ^ (53 - bitLength K)) ((bitLength K : Int) - 53) := by
  have hb := bitLength_le_of_lt K hK
  have hb0 := bitLength_pos K hK0
  unfold round
  simp only [hK0, if_false, zero_add]
  rw [max_eq_left (by omega)]
  rw [if_pos (by omega), if_neg (by omega)]
  have ht : (0 - ((bitLength K : Int) - 53)).toNat = 53 - bitLength K := by omega
  rw [ht]

/-- Rounding an integer below `2^53` that is written with another exponent
gives the stored form of that integer. -/
theorem round_exact (s : Bool) (M : Nat) (E : Int) (K : Nat) (hK : K < 2 ^ 53)
    (hval : (0 ≤ E ∧ K = M * 2 ^ E.toNat) ∨ (E < 0 ∧ M = K * 2 ^ (-E).toNat)) :
    round s M E false = round s K 0 false := by
  by_cases hK0 : K = 0
  · subst hK0
    have hM : M = 0 := by
      rcases hval with ⟨_, h⟩ | ⟨_, h⟩
      · have hp : 0 < 2 ^ E.toNat := Nat.pow_pos (by norm_num)
        rcases Nat.eq_zero_or_pos M with h0 | h0
        · exact h0
        · have := Nat.mul_pos h0 hp
          omega
      · simpa using h
    subst hM
    simp [round]
  · rw [round_nat s K hK0 hK]
    have hb := bitLength_le_of_lt K hK
    have hb0 := bitLength_pos K hK0
    rcases hval with ⟨hE, h⟩ | ⟨hE, h⟩
    · have hEn : ((E.toNat : Nat) : Int) = E := Int.toNat_of_nonneg hE
      generalize E.toNat = j at hEn h
      have hM0 : M ≠ 0 := by
        intro hM
        rw [hM] at h
        simp at h
        exact hK0 h
      have hbM : bitLength K = bitLength M + j := by
        rw [h, bitLength_mul_pow M j hM0]
      unfold round
      simp only [hM0, if_false]
      have hmax : max (E + (bitLength M : Int) - 53) (-1074) = (bitLength K : Int) - 53 := by
        rw [max_eq_left (by omega)]
        omega
      rw [hmax, if_pos (by omega), if_neg (by omega)]
      congr 1
      have ht : (E - ((bitLength K : Int) - 53)).toNat = j + (53 - bitLength K) := by omega
      rw [ht, h, Nat.pow_add, Nat.mul_assoc]
    · have hEn : (((-E).toNat : Nat) : Int) = -E := Int.toNat_of_nonneg (by omega)
      generalize (-E).toNat = j at hEn h
      have hM0 : M ≠ 0 := by
        rw [h]
        exact Nat.mul_ne_zero hK0 (Nat.pos_iff_ne_zero.mp (Nat.pow_pos (by norm_num)))
      have hbM : bitLength M = bitLength K + j := by
        rw [h, bitLength_mul_pow K j hK0]
      unfold round
      simp only [hM0, if_false]
      have hmax : max (E + (bitLength M : Int) - 53) (-1074) = (bitLength K : Int) - 53 := by
        rw [max_eq_left (by omega)]
        omega
      rw [hmax]
      by_cases hle : (bitLength K : Int) - 53 ≤ E
      · rw [if_pos hle, if_neg (by omega)]
        congr 1
        have hd : ∃ d, (E - ((bitLength K : Int) - 53)).toNat = d ∧ 53 - bitLength K = j + d :=
          ⟨_, rfl, by omega⟩
        obtain ⟨d, hd1, hd2⟩ := hd
        rw [hd1, hd2, h, Nat.pow_add, Nat.mul_assoc]
      · rw [if_neg hle]
        have hd : ∃ sh, ((bitLength K : Int) - 53 - E).toNat = sh ∧ j = sh + (53 - bitLength K) ∧
            0 < sh := ⟨_, rfl, by omega, by omega⟩
        obtain ⟨sh, hs1, hs2, hs3⟩ := hd
        rw [hs1]
        have hMsh : M = (K * 2 ^ (53 - bitLength K)) * 2 ^ sh := by
          rw [h, hs2, Nat.pow_add, Nat.mul_assoc, Nat.mul_comm (2 ^ sh)]
        have hq : roundShift M sh false = K * 2 ^ (53 - bitLength K) := by
          have hpos : 0 < 2 ^ sh := Nat.pow_pos (by norm_num)
          unfold roundShift
          simp only [hMsh, Nat.mul_div_cancel _ hpos, Nat.mul_mod_left]
          rw [if_neg (by omega)]
          have hh : 0 < 2 ^ (sh - 1) := Nat.pow_pos (by norm_num)
          rw [if_neg (by omega)]
        rw [hq]
        have hlt : K * 2 ^ (53 - bitLength K) < 2 ^ 53 := by
          have c2 := bitLength_upper K
          have : 2 ^ bitLength K * 2 ^ (53 - bitLength K) = 2 ^ 53 := pow_split _ _ _ (by omega)
          rw [← this]
          exact Nat.mul_lt_mul_of_pos_right c2 (Nat.pow_pos (by norm_num))
        rw [if_neg (by omega), if_neg (by omega)]

theorem signed_natAbs (a : Int) :
    (if decide (a < 0) = true then (-1 : Int) else 1) * (a.natAbs : Int) = a := by
  by_cases h : a < 0
  · simp only [h, decide_True, if_true]
    omega
  · simp only [h, decide_False, Bool.false_eq_true, if_false]
    omega

/-- The stored form of `float64(a)` for `|a| < 2^53`: the mantissa is `|a|`
shifted left, nothing is rounded away. -/
theorem ofInt_form (a : Int) (ha : a.natAbs < 2 ^ 53) :
    ∃ (m j : Nat), ofInt a = fin (decide (a < 0)) m (-(j : Int)) ∧ j ≤ 1074 ∧
      m = a.natAbs * 2 ^ j := by
  by_cases h0 : a = 0
  · subst h0
    exact ⟨0, 1074, by simp [ofInt, round], by omega, by rw [Int.natAbs_zero, Nat.zero_mul]⟩
  · have hK0 : a.natAbs ≠ 0 := by omega
    have hb := bitLength_le_of_lt _ ha
    refine ⟨a.natAbs * 2 ^ (53 - bitLength a.natAbs), 53 - bitLength a.natAbs, ?_, by omega, rfl⟩
    unfold ofInt
    rw [round_nat _ _ hK0 ha]
    congr 1
    omega

theorem add_fin_of_scaled (s t : Bool) (m n : Nat) (ja jb : Nat) (a b : Int)
    (hs : s = decide (a < 0)) (ht : b ≠ 0 → t = decide (b < 0))
    (hm : m = a.natAbs * 2 ^ ja) (hn : n = b.natAbs * 2 ^ jb)
    (hab : (a + b).natAbs < 2 ^ 53) :
    add (fin s m (-(ja : Int))) (fin t n (-(jb : Int))) = ofInt (a + b) := by
  have key : ∀ (G : Nat) (da db : Nat), ja + da = G → jb + db = G →
      (if s = true then (-1 : Int) else 1) * ((m * 2 ^ da : Nat) : Int) +
        (if t = true then (-1 : Int) else 1) * ((n * 2 ^ db : Nat) : Int) =
        (a + b) * (2 : Int) ^ G := by
    intro G da db h1 h2
    have e1 := signed_natAbs a
    rw [← hs] at e1
    have e2 : (if t = true then (-1 : Int) else 1) * (b.natAbs : Int) = b := by
      by_cases hb0 : b = 0
      · subst hb0
        simp
      · have := signed_natAbs b
        rw [← ht hb0] at this
        exact this
    rw [hm, hn]
    simp only [Nat.cast_mul, Nat.cast_pow, Nat.cast_ofNat]
    rw [← h1]
    have p1 : (2 : Int) ^ (ja + da) = 2 ^ ja * 2 ^ da := pow_add _ _ _
    have p2 : (2 : Int) ^ (ja + da) = 2 ^ jb * 2 ^ db := by
      rw [show ja + da = jb + db by omega]
      exact pow_add _ _ _
    calc (if s = true then (-1 : Int) else 1) * ((a.natAbs : Int) * 2 ^ ja * 2 ^ da) +
          (if t = true then (-1 : Int) else 1) * ((b.natAbs : Int) * 2 ^ jb * 2 ^ db)
        = ((if s = true then (-1 : Int) else 1) * (a.natAbs : Int)) * (2 ^ ja * 2 ^ da) +
          ((if t = true then (-1 : Int) else 1) * (b.natAbs : Int)) * (2 ^ jb * 2 ^ db) := by
          ring
      _ = a * 2 ^ (ja + da) + b * 2 ^ (ja + da) := by rw [e1, e2, ← p1, ← p2]
      _ = (a + b) * 2 ^ (ja + da) := by ring
  have main : ∀ (G da db : Nat), ja + da = G → jb + db = G →
      min (-(ja : Int)) (-(jb : Int)) = -(G : Int) →
      add (fin s m (-(ja : Int))) (fin t n (-(jb : Int))) = ofInt (a + b) := by
    intro G da db h1 h2 hg
    have hda : (-(ja : Int) - -(G : Int)).toNat = da := by omega
    have hdb : (-(jb : Int) - -(G : Int)).toNat = db := by omega
    have hpow : (0 : Int) < 2 ^ G := pow_pos (by norm_num) G
    simp only [add, hg, hda, hdb, key G da db h1 h2]
    by_cases h0 : a + b = 0
    · rw [h0]
      simp only [zero_mul, if_true]
      have hst : (s && t) = false := by
        by_cases ha : a < 0
        · have hb : ¬ b < 0 := by omega
          rw [ht (by omega)]
          simp [hb]
        · rw [hs]
          simp [ha]
      rw [hst]
      simp [ofInt, round]
    · have hc : (a + b) * (2 : Int) ^ G ≠ 0 := mul_ne_zero h0 (ne_of_gt hpow)
      rw [if_neg hc]
      have hsign : decide ((a + b) * (2 : Int) ^ G < 0) = decide (a + b < 0) := by
        congr 1
        apply propext
        constructor
        · intro h
          by_contra hcon
          have : 0 ≤ (a + b) * (2 : Int) ^ G := mul_nonneg (by omega) (le_of_lt hpow)
          omega
        · intro h
          exact mul_neg_of_neg_of_pos h hpow
      have habs : ((a + b) * (2 : Int) ^ G).natAbs = (a + b).natAbs * 2 ^ G := by
        rw [Int.natAbs_mul, Int.natAbs_pow]
        rfl
      rw [hsign, habs]
      unfold ofInt
      apply round_exact _ _ _ _ hab
      by_cases hG : G = 0
      · left
        subst hG
        simp
      · right
        refine ⟨by omega, ?_⟩
        have : (-(-(G : Int))).toNat = G := by omega
        rw [this]
  by_cases hle : ja ≤ jb
  · exact main jb (jb - ja) 0 (by omega) (by omega) (by omega)
  · exact main ja 0 (ja - jb) (by omega) (by omega) (by omega)

/-- Adding two integers in `float64` is exact while the integers and their sum
stay below `2^53`. -/
theorem add_ofInt (a b : Int) (ha : a.natAbs < 2 ^ 53) (hb : b.natAbs < 2 ^ 53)
    (hab : (a + b).natAbs < 2 ^ 53) : add (ofInt a) (ofInt b) = ofInt (a + b) := by
  obtain ⟨m, ja, hfa, _, hm⟩ := ofInt_form a ha
  obtain ⟨n, jb, hfb, _, hn⟩ := ofInt_form b hb
  rw [hfa, hfb]
  exact add_fin_of_scaled _ _ m n ja jb a b rfl (fun _ => rfl) hm hn hab

/-- Subtracting two integers in `float64` is exact while the integers and
their difference stay below `2^53`. -/
theorem sub_ofInt (a b : Int) (ha : a.natAbs < 2 ^ 53) (hb : b.natAbs < 2 ^ 53)
    (hab : (a - b).natAbs < 2 ^ 53) : sub (ofInt a) (ofInt b) = ofInt (a - b) := by
  obtain ⟨m, ja, hfa, _, hm⟩ := ofInt_form a ha
  obtain ⟨n, jb, hfb, _, hn⟩ := ofInt_form b hb
  unfold sub
  rw [hfa, hfb]
  simp only [neg]
  have hnb : (-b).natAbs = b.natAbs := Int.natAbs_neg b
  have := add_fin_of_scaled (decide (a < 0)) (!decide (b < 0)) m n ja jb a (-b) rfl
    (by
      intro hb0
      by_cases h : b < 0
      · have h2 : ¬ (-b < 0) := by omega
        simp [h, h2]
      · have h2 : -b < 0 := by omega
        simp [h, h2])
    hm (by rw [hnb]; exact hn) (by rw [← sub_eq_add_neg]; exact hab)
  rw [this, sub_eq_add_neg]

theorem roundShift_mul_pow (A sh : Nat) : roundShift (A * 2 ^ sh) sh false = A := by
  have hpos : 0 < 2 ^ sh := Nat.pow_pos (by norm_num)
  have hh : 0 < 2 ^ (sh - 1) := Nat.pow_pos (by norm_num)
  unfold roundShift
  simp only [Nat.mul_div_cancel _ hpos, Nat.mul_mod_left]
  split
  · rfl
  · rw [if_neg (by omega)]

/-- Squaring an integer with `math.Pow(x, 2)` is exact while the square stays
below `2^53`. -/
theorem powTwo_ofInt (d : Int) (hd : (d * d).natAbs < 2 ^ 53) :
    powTwo (ofInt d) = ofInt (d * d) := by
  have hdd : (d * d).natAbs = d.natAbs * d.natAbs := Int.natAbs_mul d d
  have hle : d.natAbs ≤ d.natAbs * d.natAbs := Nat.le_mul_self _
  obtain ⟨m, j, hf, _, hm⟩ := ofInt_form d (by omega)
  have hnn : ¬ (d * d < 0) := not_lt.mpr (mul_self_nonneg d)
  rw [hf]
  simp only [powTwo]
  by_cases h0 : d = 0
  · subst h0
    have : m = 0 := by rw [hm]; simp
    subst this
    simp [ofInt, round]
  · have hK0 : d.natAbs ≠ 0 := by omega
    have hKK0 : d.natAbs * d.natAbs ≠ 0 := Nat.mul_ne_zero hK0 hK0
    have hm0 : m ≠ 0 := by
      rw [hm]
      exact Nat.mul_ne_zero hK0 (Nat.pos_iff_ne_zero.mp (Nat.pow_pos (by norm_num)))
    have hmm : m * m = (d.natAbs * d.natAbs) * 2 ^ (j + j) := by
      rw [hm, Nat.pow_add]
      ring
    have hbits : bitLength (m * m) = bitLength (d.natAbs * d.natAbs) + (j + j) := by
      rw [hmm, bitLength_mul_pow _ _ hKK0]
    have hbK := bitLength_le_of_lt (d.natAbs * d.natAbs) (by omega)
    rw [if_neg hm0]
    unfold ofInt
    rw [decide_eq_false hnn, hdd]
    by_cases hb : bitLength (m * m) ≤ 53
    · rw [if_pos hb]
      apply round_exact _ _ _ _ (by omega)
      by_cases hj : j = 0
      · left
        subst hj
        simpa using hmm.symm
      · right
        refine ⟨by omega, ?_⟩
        have : (-(-(j : Int) + -(j : Int))).toNat = j + j := by omega
        rw [this, hmm]
    · rw [if_neg hb]
      have hsh : ∃ sh t, bitLength (m * m) - 53 = sh ∧ j + j = t + sh :=
        ⟨bitLength (m * m) - 53, j + j - (bitLength (m * m) - 53), rfl, by omega⟩
      obtain ⟨sh, t, hs1, hs2⟩ := hsh
      rw [hs1]
      have hmm2 : m * m = (d.natAbs * d.natAbs * 2 ^ t) * 2 ^ sh := by
        rw [hmm, hs2, Nat.pow_add]
        ring
      rw [hmm2, roundShift_mul_pow]
      apply round_exact _ _ _ _ (by omega)
      by_cases ht : t = 0
      · left
        subst ht
        have hz : (-(j : Int) + -(j : Int) + (sh : Int)).toNat = 0 := by omega
        refine ⟨by omega, ?_⟩
        rw [hz]
        simp
      · right
        refine ⟨by omega, ?_⟩
        have : (-(-(j : Int) + -(j : Int) + (sh : Int))).toNat = t := by omega
        rw [this]

/-- Dividing an integer by a positive divisor of it is exact in `float64`
while both stay below `2^53`. -/
theorem div_ofInt (a N c : Int) (hN : 0 < N) (hNlt : N.natAbs < 2 ^ 53) (ha : a = c * N)
    (halt : a.natAbs < 2 ^ 53) : div (ofInt a) (ofInt N) = ofInt c := by
  have habs : a.natAbs = c.natAbs * N.natAbs := by rw [ha, Int.natAbs_mul]
  have hN0 : N.natAbs ≠ 0 := by omega
  have hNpos : 0 < N.natAbs := by omega
  have hc : c.natAbs < 2 ^ 53 := by
    have : c.natAbs ≤ c.natAbs * N.natAbs := Nat.le_mul_of_pos_right _ hNpos
    omega
  obtain ⟨m, ja, hfa, _, hm⟩ := ofInt_form a halt
  obtain ⟨n, jn, hfn, _, hn⟩ := ofInt_form N hNlt
  have hn0 : n ≠ 0 := by
    rw [hn]
    exact Nat.mul_ne_zero hN0 (Nat.pos_iff_ne_zero.mp (Nat.pow_pos (by norm_num)))
  have hbn : bitLength n = bitLength N.natAbs + jn := by
    rw [hn, bitLength_mul_pow _ _ hN0]
  have hbN := bitLength_pos N.natAbs hN0
  rw [hfa, hfn]
  simp only [div, hn0, if_false]
  have hk : ∃ k t, bitLength n + 64 = k ∧ ja + k = t + jn ∧ 0 < t :=
    ⟨bitLength n + 64, ja + (bitLength n + 64) - jn, rfl, by omega, by omega⟩
  obtain ⟨k, t, hk1, hk2, hk3⟩ := hk
  rw [hk1]
  have hmk : m * 2 ^ k = (c.natAbs * 2 ^ t) * n := by
    rw [hm, hn, habs]
    have : (2 : Nat) ^ ja * 2 ^ k = 2 ^ t * 2 ^ jn := by
      rw [← Nat.pow_add, ← Nat.pow_add, hk2]
    calc c.natAbs * N.natAbs * 2 ^ ja * 2 ^ k
        = c.natAbs * N.natAbs * (2 ^ ja * 2 ^ k) := by ring
      _ = c.natAbs * N.natAbs * (2 ^ t * 2 ^ jn) := by rw [this]
      _ = c.natAbs * 2 ^ t * (N.natAbs * 2 ^ jn) := by ring
  have hnpos : 0 < n := Nat.pos_of_ne_zero hn0
  rw [hmk, Nat.mul_div_cancel _ hnpos, Nat.mul_mod_left]
  simp only [ne_eq, not_true_eq_false, decide_False]
  have hsgn : (xor (decide (a < 0)) (decide (N < 0))) = decide (a < 0) := by
    have : ¬ N < 0 := by omega
    simp [this]
  rw [hsgn]
  unfold ofInt
  by_cases hc0 : c = 0
  · subst hc0
    have ha0 : a = 0 := by simpa using ha
    subst ha0
    simp [round]
  · have hs : decide (a < 0) = decide (c < 0) := by
      congr 1
      apply propext
      rw [ha]
      constructor
      · intro h
        by_contra hcon
        have : 0 ≤ c * N := mul_nonneg (by omega) (le_of_lt hN)
        omega
      · intro h
        exact mul_neg_of_neg_of_pos h hN
    rw [hs]
    apply round_exact _ _ _ _ hc
    right
    refine ⟨by omega, ?_⟩
    have : (-(-(ja : Int) - -(jn : Int) - (k : Int))).toNat = t := by omega
    rw [this]

theorem units_ofInt (k : Int) (hk : k.natAbs < 2 ^ 53) :
    units (ofInt k) = some (k * 2 ^ 1074) := by
  obtain ⟨m, j, hf, hj, hm⟩ := ofInt_form k hk
  rw [hf]
  simp only [units]
  rw [if_pos (by omega)]
  have ht : (-(j : Int) + 1074).toNat = 1074 - j := by omega
  rw [ht, hm]
  congr 1
  have hp : (2 : Int) ^ 1074 = 2 ^ j * 2 ^ (1074 - j) := by
    rw [← pow_add]
    congr 1
    omega
  have e1 := signed_natAbs k
  simp only [Nat.cast_mul, Nat.cast_pow, Nat.cast_ofNat]
  calc (if decide (k < 0) = true then (-1 : Int) else 1) *
        ((k.natAbs : Int) * 2 ^ j * 2 ^ (1074 - j))
      = ((if decide (k < 0) = true then (-1 : Int) else 1) * (k.natAbs : Int)) *
          (2 ^ j * 2 ^ (1074 - j)) := by ring
    _ = k * 2 ^ 1074 := by rw [e1, ← hp]

end F64

/-! ## stdDev: sequences with an integer mean -/

theorem foldl_add_ofInt (l : List Int) :
    ∀ (A : Int), 0 ≤ A → (∀ y, y ∈ l → 0 ≤ y) → A + l.sum < 2 ^ 53 →
      (l.map F64.ofInt).foldl F64.add (F64.ofInt A) = F64.ofInt (A + l.sum) := by
  induction l with
  | nil => intro A _ _ _; simp
  | cons y ys ih =>
    intro A hA hl hlt
    have hy : 0 ≤ y := hl y (List.mem_cons_self _ _)
    have hys : ∀ z, z ∈ ys → 0 ≤ z := fun z hz => hl z (List.mem_cons_of_mem _ hz)
    have hsum : 0 ≤ ys.sum := List.sum_nonneg hys
    simp only [List.sum_cons] at hlt
    simp only [List.map_cons, List.foldl_cons, List.sum_cons]
    rw [F64.add_ofInt A y (by omega) (by omega) (by omega)]
    rw [ih (A + y) (by omega) hys (by omega)]
    congr 1
    omega

theorem unitsSum_map_ofInt (l : List Int) (hl : ∀ y, y ∈ l → y.natAbs < 2 ^ 53) :
    F64.unitsSum (l.map F64.ofInt) = some (l.sum * 2 ^ 1074) := by
  induction l with
  | nil => simp only [List.map_nil, F64.unitsSum, List.sum_nil, zero_mul]
  | cons y ys ih =>
    have h1 := F64.units_ofInt y (hl y (List.mem_cons_self _ _))
    have h2 := ih (fun z hz => hl z (List.mem_cons_of_mem _ hz))
    simp only [List.map_cons, F64.unitsSum, h1, h2, List.sum_cons]
    rw [add_mul]

theorem sq_le_sumSqDev (S : List Int) (mu x : Int) (hx : x ∈ S) :
    (x - mu) * (x - mu) ≤ sumSqDev S mu := by
  unfold sumSqDev
  induction S with
  | nil => simp at hx
  | cons y ys ih =>
    have hnn : 0 ≤ (ys.map (fun x => (x - mu) * (x - mu))).sum := by
      apply List.sum_nonneg
      intro z hz
      obtain ⟨w, _, hw⟩ := List.mem_map.mp hz
      rw [← hw]
      exact mul_self_nonneg _
    simp only [List.map_cons, List.sum_cons]
    rcases List.mem_cons.mp hx with h | h
    · subst h
      omega
    · have := ih h
      have : 0 ≤ (y - mu) * (y - mu) := mul_self_nonneg _
      omega

theorem natAbs_le_sq (d : Int) : (d.natAbs : Int) ≤ d * d := by
  rcases le_or_lt 0 d with h | h
  · have : (d.natAbs : Int) = d := by omega
    rw [this]
    rcases eq_or_lt_of_le h with h0 | h1
    · rw [← h0]
      simp
    · nlinarith
  · have : (d.natAbs : Int) = -d := by omega
    rw [this]
    nlinarith

/-- When the mean is an integer and nothing exceeds `2^53`, `stdDev` computes
without rounding up to the last two operations: its result is the rounded
square root of the rounded quotient of the exact sum of squared deviations by
the count. -/
theorem stdDev_exact (S : List Int) (mu : Int) (hne : S ≠ []) (hn : S.length < 2 ^ 53)
    (hmu : S.sum = mu * S.length) (hsum : S.sum.natAbs < 2 ^ 53)
    (hx : ∀ x, x ∈ S → x.natAbs < 2 ^ 53) (hV : sumSqDev S mu < 2 ^ 53) :
    meanOf S = F64.ofInt mu ∧ accOf S = F64.ofInt (sumSqDev S mu) ∧ accExact S ∧
      stdDev S =
        F64.sqrt (F64.div (F64.ofInt (sumSqDev S mu)) (F64.ofInt (S.length : Int))) := by
  have hlen : 0 < S.length := List.length_pos.mpr hne
  have hint : intSum S = S.sum := intSum_of_range S (by omega) (by omega)
  have hmean : meanOf S = F64.ofInt mu := by
    unfold meanOf
    rw [hint]
    exact F64.div_ofInt S.sum (S.length : Int) mu (by omega) (by omega) hmu hsum
  have hmuabs : mu.natAbs < 2 ^ 53 := by
    have h1 : S.sum.natAbs = mu.natAbs * S.length := by
      rw [hmu, Int.natAbs_mul]
      simp
    have h2 : mu.natAbs ≤ mu.natAbs * S.length := Nat.le_mul_of_pos_right _ hlen
    omega
  have hVnn : 0 ≤ sumSqDev S mu := by
    unfold sumSqDev
    apply List.sum_nonneg
    intro z hz
    obtain ⟨w, _, hw⟩ := List.mem_map.mp hz
    rw [← hw]
    exact mul_self_nonneg _
  have hterm : ∀ x, x ∈ S → F64.powTwo (F64.sub (F64.ofInt x) (meanOf S)) =
      F64.ofInt ((x - mu) * (x - mu)) := by
    intro x hxS
    have h1 := sq_le_sumSqDev S mu x hxS
    have h2 := natAbs_le_sq (x - mu)
    have h3 : 0 ≤ (x - mu) * (x - mu) := mul_self_nonneg _
    rw [hmean, F64.sub_ofInt x mu (hx x hxS) hmuabs (by omega)]
    exact F64.powTwo_ofInt (x - mu) (by omega)
  have hsq : sqDevs S = (S.map (fun x => (x - mu) * (x - mu))).map F64.ofInt := by
    unfold sqDevs
    rw [List.map_map]
    apply List.map_congr_left
    intro x hxS
    exact hterm x hxS
  have hzero : F64.zero = F64.ofInt 0 := by simp [F64.zero, F64.ofInt, F64.round]
  have hacc : accOf S = F64.ofInt (sumSqDev S mu) := by
    unfold accOf
    rw [hsq, hzero]
    have := foldl_add_ofInt (S.map (fun x => (x - mu) * (x - mu))) 0 (le_refl 0)
      (by
        intro z hz
        obtain ⟨w, _, hw⟩ := List.mem_map.mp hz
        rw [← hw]
        exact mul_self_nonneg _)
      (by
        have : sumSqDev S mu = (S.map (fun x => (x - mu) * (x - mu))).sum := rfl
        omega)
    rw [this]
    congr 1
    unfold sumSqDev
    omega
  refine ⟨hmean, hacc, ?_, by rw [stdDev_eq_acc, hacc]⟩
  have hu := F64.units_ofInt (sumSqDev S mu) (by omega)
  have hus := unitsSum_map_ofInt (S.map (fun x => (x - mu) * (x - mu)))
    (by
      intro z hz
      obtain ⟨w, hwS, hw⟩ := List.mem_map.mp hz
      have h1 := sq_le_sumSqDev S mu w hwS
      have h3 : 0 ≤ (w - mu) * (w - mu) := mul_self_nonneg _
      rw [← hw]
      omega)
  constructor
  · rw [hacc, hu]
    rfl
  · rw [hacc, hu, hsq, hus]
    rfl

theorem stdDev_perm_integer_mean (P S : List Int) (h : P.Perm S) (mu : Int) (hne : S ≠ [])
    (hn : S.length < 2 ^ 53) (hmu : S.sum = mu * S.length) (hsum : S.sum.natAbs < 2 ^ 53)
    (hx : ∀ x, x ∈ S → x.natAbs < 2 ^ 53) (hV : sumSqDev S mu < 2 ^ 53) :
    stdDev P = stdDev S := by
  have hlen := h.length_eq
  have hs := h.sum_eq
  have hVeq : sumSqDev P mu = sumSqDev S mu := (h.map _).sum_eq
  have hPne : P ≠ [] := by
    intro hP
    rw [hP] at hlen
    exact hne (List.eq_nil_of_length_eq_zero hlen.symm)
  have e1 := (stdDev_exact S mu hne hn hmu hsum hx hV).2.2.2
  have e2 := (stdDev_exact P mu hPne (by omega) (by rw [hs, hlen]; exact hmu) (by rw [hs]; exact hsum)
    (fun x hxP => hx x (h.mem_iff.mp hxP)) (by rw [hVeq]; exact hV)).2.2.2
  rw [e1, e2, hVeq, hlen]

/-! ## getRandomSets: the claims -/

/-- C1: every schedule of `getRandomSets` is finite; when the call of some
goroutine fails (by itself, or aborted), the function cannot block before it
returns, and what it returns is a nil list with a non-nil error, however many
of the other calls succeeded; when it returns a non-nil list, the call of every
goroutine has returned data, which sits in the slot of that goroutine. -/
theorem getRandomSets_all_or_nothing (cfg : Config) (acts : List Action) (s : State)
    (h : getRandomSets cfg acts = some s) :
    acts.length ≤ 5 * cfg.setsCount + 4 ∧
    (((∃ j u, j < cfg.setsCount ∧ cfg.getRandomsFromRandomOrg j cfg.setSize = Outcome.fail u) ∨
        (∃ (j : Nat) (pc : TaskPc) (e : FetchErr), s.tasks[j]? = some pc ∧ pc.err? = some e)) →
      (s.main.isReturned = false →
        ∃ a, a ≠ Action.parentCancel ∧ (step cfg s a).isSome = true) ∧
      (∀ r e, s.main = MainPc.returned r e → r = none ∧ e ≠ none)) ∧
    (∀ r e, s.main = MainPc.returned (some r) e →
      e = none ∧ r.length = cfg.setsCount ∧
        ∀ j, j < cfg.setsCount → ∃ d, cfg.getRandomsFromRandomOrg j cfg.setSize = Outcome.ok d ∧
          s.tasks[j]? = some (TaskPc.doneOk d) ∧ r[j]? = some d) := by
  have hinv := inv_exec cfg acts s h
  refine ⟨exec_length cfg acts s h, ?_, fun r e hm => returned_slots cfg s hinv r e hm⟩
  intro hfail
  have hdone : (∀ i, s.main ≠ MainPc.loop i) → ∃ (j : Nat) (e : FetchErr),
      s.tasks[j]? = some (TaskPc.doneErr e) := by
    intro hnl
    rcases hfail with ⟨j, u, hj, hf⟩ | ⟨j, pc, e, hpc, he⟩
    · obtain ⟨e, he⟩ := failing_task_done cfg s hinv j u hj hf hnl
      exact ⟨j, e, he⟩
    · have hd := hinv.afterLoop hnl j pc hpc
      cases pc with
      | doneErr e0 => exact ⟨j, e0, hpc⟩
      | doneOk d => simp at he
      | idle => simp at hd
      | fetching => simp at hd
      | failed e0 => simp at hd
      | sent e0 => simp at hd
      | cancelled e0 => simp at hd
      | fetched d => simp at hd
      | stored d => simp at hd
  constructor
  · intro hr
    apply progress cfg s hinv hr
    intro hm hch
    have hnl : ∀ i, s.main ≠ MainPc.loop i := by
      intro i hi
      rw [hi] at hm
      exact MainPc.noConfusion hm
    obtain ⟨j, e, hj⟩ := hdone hnl
    have h1 := le_sum_map TaskPc.sentW s.tasks j _ hj
    have h2 := hinv.chanLen hr
    rw [hch] at h2
    simp at h1 h2
    omega
  · intro r e hm
    have hnl : ∀ i, s.main ≠ MainPc.loop i := by
      intro i hi
      rw [hi] at hm
      exact MainPc.noConfusion hm
    cases r with
    | none => exact ⟨rfl, hinv.retErr e hm⟩
    | some r0 =>
      obtain ⟨j, e0, hj⟩ := hdone hnl
      have := (hinv.retOk r0 e hm).2.2 j _ hj
      simp at this

/-- C1, on a call of two goroutines of which the second fails. -/
theorem getRandomSets_all_or_nothing_witness :
    getRandomSets cfgOneFails actsOneFails = some finalOneFails ∧
    finalOneFails.main = MainPc.returned none (some (FetchErr.call CallErr.decode)) ∧
    (none : Option (List (List Int))) = none ∧
    some (FetchErr.call CallErr.decode) ≠ none :=
  ⟨rfl, rfl,
    ((getRandomSets_all_or_nothing cfgOneFails actsOneFails finalOneFails rfl).2.1
      (Or.inl ⟨1, CallErr.decode, by decide, rfl⟩)).2 none
        (some (FetchErr.call CallErr.decode)) rfl⟩

/-- C5 fails when the parent context is cancelled: the only call has
succeeded and its goroutine has returned, the parent context is cancelled
before line 88, and `getRandomSets` waits on line 89 for an error that nobody
sends; no list is returned. -/
theorem getRandomSets_slot_order_counterexample :
    1 ≤ cfgOneOk.setsCount ∧
    (∀ j, j < cfgOneOk.setsCount → cfgOneOk.getRandomsFromRandomOrg j cfgOneOk.setSize = Outcome.ok [7, 8, 9]) ∧
    ∃ s, getRandomSets cfgOneOk actsLateCancel = some s ∧
      s.tasks = [TaskPc.doneOk [7, 8, 9]] ∧
      s.main = MainPc.receiving ∧ s.errorsChannel = [] ∧
      ∀ a, step cfgOneOk s a = none := by
  refine ⟨by decide, fun _ _ => rfl, _, rfl, rfl, rfl, rfl, ?_⟩
  intro a
  cases a with
  | spawn => rfl
  | wait => rfl
  | check => rfl
  | recv => rfl
  | parentCancel => rfl
  | fetch id => cases id <;> simp [step, init, cfgOneOk]
  | abort id => cases id <;> simp [step, init, cfgOneOk]
  | send id => cases id <;> simp [step, init, cfgOneOk]
  | cancel id => cases id <;> simp [step, init, cfgOneOk]
  | store id => cases id <;> simp [step, init, cfgOneOk]
  | done id => cases id <;> simp [step, init, cfgOneOk]

/-- C5, amended: when every call returns data and the parent context is not
cancelled, `getRandomSets` cannot block, and whatever the schedule it returns
the list of `setsCount` slots in which slot `i` holds the data of the goroutine
launched `i`-th, with a nil error; two schedules therefore return the same. -/
theorem getRandomSets_slot_order (cfg : Config) (acts1 acts2 : List Action) (s1 s2 : State)
    (hall : ∀ j, j < cfg.setsCount → ∃ d, cfg.getRandomsFromRandomOrg j cfg.setSize = Outcome.ok d)
    (h1 : getRandomSets cfg acts1 = some s1) (h2 : getRandomSets cfg acts2 = some s2)
    (hp1 : s1.parentDone = false) (hp2 : s2.parentDone = false) :
    acts1.length ≤ 5 * cfg.setsCount + 4 ∧
    (s1.main.isReturned = false →
      ∃ a, a ≠ Action.parentCancel ∧ (step cfg s1 a).isSome = true) ∧
    (∀ r e, s1.main = MainPc.returned r e → r = some (launchOrder cfg) ∧ e = none) ∧
    (launchOrder cfg).length = cfg.setsCount ∧
    (∀ j d, j < cfg.setsCount → cfg.getRandomsFromRandomOrg j cfg.setSize = Outcome.ok d →
      (launchOrder cfg)[j]? = some d) ∧
    (∀ r1 e1 r2 e2, s1.main = MainPc.returned r1 e1 → s2.main = MainPc.returned r2 e2 →
      r1 = r2 ∧ e1 = e2) := by
  have key : ∀ (acts : List Action) (s : State), getRandomSets cfg acts = some s → s.parentDone = false →
      ∀ r e, s.main = MainPc.returned r e → r = some (launchOrder cfg) ∧ e = none := by
    intro acts s h hp r e hm
    have hinv := inv_exec cfg acts s h
    have he := (quiet cfg s hinv hp hall).2.2 r e hm
    subst he
    cases r with
    | none => exact absurd rfl (hinv.retErr none hm)
    | some r0 =>
      obtain ⟨_, hlen, hslots⟩ := returned_slots cfg s hinv r0 none hm
      refine ⟨?_, rfl⟩
      congr 1
      apply List.ext_getElem?
      intro j
      by_cases hj : j < cfg.setsCount
      · obtain ⟨d, hf, _, hr⟩ := hslots j hj
        rw [hr, launchOrder_get cfg j hj, hf]
        rfl
      · rw [List.getElem?_eq_none (by omega),
          List.getElem?_eq_none (by rw [launchOrder_length]; omega)]
  have hinv1 := inv_exec cfg acts1 s1 h1
  refine ⟨exec_length cfg acts1 s1 h1, ?_, key acts1 s1 h1 hp1, launchOrder_length cfg, ?_, ?_⟩
  · intro hr
    apply progress cfg s1 hinv1 hr
    intro hm
    have hc := hinv1.recvCtx hm
    rw [(quiet cfg s1 hinv1 hp1 hall).2.1 hr] at hc
    exact Bool.noConfusion hc
  · intro j d hj hf
    rw [launchOrder_get cfg j hj, hf]
    rfl
  · intro r1 e1 r2 e2 hm1 hm2
    obtain ⟨hr1, he1⟩ := key acts1 s1 h1 hp1 r1 e1 hm1
    obtain ⟨hr2, he2⟩ := key acts2 s2 h2 hp2 r2 e2 hm2
    exact ⟨hr1.trans hr2.symm, he1.trans he2.symm⟩

/-- C5 amended, on two calls that complete in launch order and in reverse
order. -/
theorem getRandomSets_slot_order_witness :
    ((∀ j, j < cfgBothOk.setsCount → ∃ d, cfgBothOk.getRandomsFromRandomOrg j cfgBothOk.setSize = Outcome.ok d) ∧
      getRandomSets cfgBothOk actsForward = some finalBothOk ∧
      getRandomSets cfgBothOk actsReverse = some finalBothOk ∧ finalBothOk.parentDone = false) ∧
    (some [[10, 20, 30], [0, 0, 0]] = some (launchOrder cfgBothOk) ∧
      (none : Option FetchErr) = none) := by
  have hall : ∀ j, j < cfgBothOk.setsCount →
      ∃ d, cfgBothOk.getRandomsFromRandomOrg j cfgBothOk.setSize = Outcome.ok d := by
    intro j _
    by_cases hj : j = 0
    · exact ⟨[10, 20, 30], by simp [cfgBothOk, hj]⟩
    · exact ⟨[0, 0, 0], by simp [cfgBothOk, hj]⟩
  exact ⟨⟨hall, rfl, rfl, rfl⟩,
    (getRandomSets_slot_order cfgBothOk actsForward actsReverse finalBothOk finalBothOk
      hall rfl rfl rfl rfl).2.2.1 _ _ rfl⟩

/-- C6: when `getRandomSets` returns an error, the list it returns is nil and
the error is the oldest one sent into the channel; the errors sent later are
still in the channel, unread. With a parent context that is not cancelled the
returned error is never the cancellation error: it is the error of a call that
failed by itself. In particular, when one of two calls fails with an error of
random.org and the other call is aborted, the returned error is the one of
random.org, and the aborted goroutine ends holding the cancellation error. -/
theorem getRandomSets_first_error (cfg : Config) (acts : List Action) (s : State)
    (r : Option (List (List Int))) (e : FetchErr)
    (h : getRandomSets cfg acts = some s) (hm : s.main = MainPc.returned r (some e)) :
    (r = none ∧ captured cfg (init cfg) acts = e :: s.errorsChannel) ∧
    (s.parentDone = false →
      ∃ j u, j < cfg.setsCount ∧ e = FetchErr.call u ∧ cfg.getRandomsFromRandomOrg j cfg.setSize = Outcome.fail u) ∧
    (∀ i k c m, cfg.setsCount = 2 → i < 2 → k < 2 → i ≠ k → s.parentDone = false →
      cfg.getRandomsFromRandomOrg i cfg.setSize = Outcome.fail (CallErr.upstream c m) → Action.abort k ∈ acts →
      e = FetchErr.call (CallErr.upstream c m) ∧
        s.tasks[k]? = some (TaskPc.doneErr FetchErr.canceled)) := by
  have hinv := inv_exec cfg acts s h
  have hnl : ∀ i, s.main ≠ MainPc.loop i := by
    intro i hi
    rw [hi] at hm
    exact MainPc.noConfusion hm
  have hnat : s.parentDone = false → ∃ (j : Nat) (pc : TaskPc) (u : CallErr),
      s.tasks[j]? = some pc ∧ pc.err? = some e ∧ e = FetchErr.call u ∧
        cfg.getRandomsFromRandomOrg j cfg.setSize = Outcome.fail u := by
    intro hp
    obtain ⟨hne, j, pc, hpc, he⟩ := hinv.retNat hp r e hm
    rcases hinv.errOrigin j pc e hpc he with ⟨u, hu, hf⟩ | hc
    · exact ⟨j, pc, u, hpc, he, hu, hf⟩
    · exact absurd hc hne
  refine ⟨⟨?_, ?_⟩, ?_, ?_⟩
  · cases r with
    | none => rfl
    | some r0 =>
      have := (hinv.retOk r0 _ hm).1
      exact Option.noConfusion this
  · have := (captured_run cfg acts (init cfg) s (inv_init cfg) rfl h).2 r e hm
    simpa [init] using this
  · intro hp
    obtain ⟨j, pc, u, hpc, _, hu, hf⟩ := hnat hp
    exact ⟨j, u, lt_of_getElem? cfg s j pc hinv hpc, hu, hf⟩
  · intro i k c m hn hi hk hik hp hf hab
    obtain ⟨pck, hpck, hek⟩ :=
      aborted_holds_canceled cfg k acts (init cfg) s (inv_init cfg) h (Or.inl hab)
    obtain ⟨j, pc, u, hpc, he, hu, hfj⟩ := hnat hp
    have hj : j < 2 := by
      rw [← hn]
      exact lt_of_getElem? cfg s j pc hinv hpc
    have hji : j = i := by
      by_contra hne
      have hjk : j = k := by omega
      subst hjk
      rw [hpc] at hpck
      have := Option.some.inj hpck
      subst this
      rw [he] at hek
      rw [Option.some.inj hek] at hu
      exact FetchErr.noConfusion hu
    subst hji
    rw [hf] at hfj
    refine ⟨by rw [hu, Outcome.fail.inj hfj], ?_⟩
    have hd := hinv.afterLoop hnl k pck hpck
    cases pck <;> simp_all

/-- C6, on a call whose first goroutine gets error 402 from random.org and
whose second goroutine is aborted by the cancellation. -/
theorem getRandomSets_first_error_witness :
    (getRandomSets cfgUpstream actsUpstream = some finalUpstream ∧
      finalUpstream.main =
        MainPc.returned none (some (FetchErr.call (CallErr.upstream 402 "quota")))) ∧
    (FetchErr.call (CallErr.upstream 402 "quota") =
        FetchErr.call (CallErr.upstream 402 "quota") ∧
      finalUpstream.tasks[1]? = some (TaskPc.doneErr FetchErr.canceled)) :=
  ⟨⟨rfl, rfl⟩,
    (getRandomSets_first_error cfgUpstream actsUpstream finalUpstream none _ rfl rfl).2.2
      0 1 402 "quota" rfl (by decide) (by decide) (by decide) rfl rfl (by decide)⟩

/-- C10: `getRandomSets` does not always return. Called with no set to fetch
and a parent context that is already cancelled, it never returns, whatever the
schedule: it finds `ctx.Err() != nil` on line 88 and then waits on line 89 for
an error that nobody sends. In that state the channel is empty and no step is
possible. -/
theorem getRandomSets_hangs_when_parent_cancelled :
    (∀ acts s, getRandomSets cfgParentCancelled acts = some s → s.main.isReturned = false) ∧
    (∃ s, getRandomSets cfgParentCancelled [Action.wait, Action.check] = some s ∧
      s.main = MainPc.receiving ∧ s.errorsChannel = [] ∧ s.ctxDone = true ∧
      ∀ a, step cfgParentCancelled s a = none) := by
  have h2 : ∀ a, step cfgParentCancelled
      { main := MainPc.receiving, tasks := [], errorsChannel := [], ctxDone := true, parentDone := true,
        sets := [], wg := 0 } a = none := by
    intro a
    cases a <;> simp [step]
  have h1 : ∀ a s, step cfgParentCancelled
      { main := MainPc.waited, tasks := [], errorsChannel := [], ctxDone := true, parentDone := true,
        sets := [], wg := 0 } a = some s →
      s = { main := MainPc.receiving, tasks := [], errorsChannel := [], ctxDone := true,
            parentDone := true, sets := [], wg := 0 } := by
    intro a s hs
    cases a <;> simp [step] at hs
    exact hs.symm
  have h0 : ∀ a s, step cfgParentCancelled (init cfgParentCancelled) a = some s →
      s = { main := MainPc.waited, tasks := [], errorsChannel := [], ctxDone := true,
            parentDone := true, sets := [], wg := 0 } := by
    intro a s hs
    cases a <;> simp [step, init, cfgParentCancelled] at hs
    exact hs.symm
  constructor
  · intro acts s h
    unfold getRandomSets at h
    cases acts with
    | nil =>
      simp only [run, Option.some.injEq] at h
      subst h
      rfl
    | cons a1 r1 =>
      simp only [run] at h
      split at h
      · rename_i s1 hs1
        have e1 := h0 a1 s1 hs1
        subst e1
        cases r1 with
        | nil =>
          simp only [run, Option.some.injEq] at h
          subst h
          rfl
        | cons a2 r2 =>
          simp only [run] at h
          split at h
          · rename_i s2 hs2
            have e2 := h1 a2 s2 hs2
            subst e2
            cases r2 with
            | nil =>
              simp only [run, Option.some.injEq] at h
              subst h
              rfl
            | cons a3 r3 =>
              simp only [run, h2 a3] at h
              exact Option.noConfusion h
          · exact Option.noConfusion h
      · exact Option.noConfusion h
  · exact ⟨_, rfl, rfl, rfl, rfl, h2⟩

/-! ## calculateResults and stdDev: the claims -/

/-- C2: for every list of sets, `calculateResults` returns one entry more than
there are sets, and entry `i` is the `i`-th set together with `stdDev` of that
set. -/
theorem calculateResults_per_set (sets : List (List Int)) (i : Nat) (set : List Int)
    (h : sets[i]? = some set) :
    (calculateResults sets).length = sets.length + 1 ∧
      (calculateResults sets)[i]? = some { Data := set, StdDev := stdDev set } :=
  ⟨calculateResults_length sets, calculateResults_entry sets i set h⟩

/-- C2, on the second of two sets. -/
theorem calculateResults_per_set_witness :
    [[10, 20, 30], [0, 0, 0]][1]? = some [0, 0, 0] ∧
    ((calculateResults [[10, 20, 30], [0, 0, 0]]).length = 2 + 1 ∧
      (calculateResults [[10, 20, 30], [0, 0, 0]])[1]? =
        some { Data := [0, 0, 0], StdDev := stdDev [0, 0, 0] }) :=
  ⟨rfl, calculateResults_per_set [[10, 20, 30], [0, 0, 0]] 1 [0, 0, 0] rfl⟩

/-- C3: the last entry of `calculateResults` holds the concatenation of all
sets in the order given, with `stdDev` of that concatenation. -/
theorem calculateResults_union (sets : List (List Int)) :
    (calculateResults sets).getLast? =
      some { Data := sets.flatten, StdDev := stdDev sets.flatten } := by
  rw [List.getLast?_eq_getElem?, calculateResults_length, Nat.add_sub_cancel]
  exact calculateResults_last sets

set_option maxRecDepth 100000 in
set_option exponentiation.threshold 3000 in
/-- C4 fails where the `int` sum overflows: for `[2^63 - 1, 1]` the sum wraps
to `-2^63`, and `stdDev` returns `5035177455121576 * 2^11` (about `1.03e19`),
which is not the value of the formula (`2^62`) and is more than twice the exact
population standard deviation `2^62 - 1`. -/
theorem stdDev_population_counterexample :
    intSum [9223372036854775807, 1] = -9223372036854775808 ∧
    stdDev [9223372036854775807, 1] = F64.fin false 5035177455121576 11 ∧
    populationStdDev [9223372036854775807, 1] = F64.fin false 4503599627370496 10 ∧
    stdDev [9223372036854775807, 1] ≠ populationStdDev [9223372036854775807, 1] ∧
    varianceTimesCountSq [9223372036854775807, 1] = (2 * (2 ^ 62 - 1)) ^ 2 ∧
    (2 * (2 ^ 62 - 1) : Int) < 5035177455121576 * 2 ^ 11 := by
  decide

/-- C4, amended: for every sequence whose sum fits in a 64-bit `int`, `stdDev`
returns the population standard deviation evaluated in `float64`: the square
root of the sum of the squared deviations from the mean divided by the count,
with the mean the sum divided by the count. When the mean is an integer `mu`
and the count, the values, the sum and the sum of squared deviations are below
`2^53`, only the last two operations round: the result is the `float64` square
root of the `float64` quotient of the exact sum of squared deviations by the
count. -/
theorem stdDev_population (S : List Int) (h1 : -2 ^ 63 ≤ S.sum) (h2 : S.sum < 2 ^ 63) :
    stdDev S = populationStdDev S ∧
    (∀ mu : Int, S ≠ [] → S.length < 2 ^ 53 → S.sum = mu * S.length →
      S.sum.natAbs < 2 ^ 53 → (∀ x, x ∈ S → x.natAbs < 2 ^ 53) → sumSqDev S mu < 2 ^ 53 →
      stdDev S =
        F64.sqrt (F64.div (F64.ofInt (sumSqDev S mu)) (F64.ofInt (S.length : Int)))) :=
  ⟨stdDev_eq_population S (intSum_of_range S h1 h2),
    fun mu hne hn hmu hsum hx hV => (stdDev_exact S mu hne hn hmu hsum hx hV).2.2.2⟩

/-- C4 amended, on `[10, 20, 30]`, whose mean is `20` and whose squared
deviations add up to `200`. -/
theorem stdDev_population_witness :
    (-2 ^ 63 ≤ [10, 20, 30].sum ∧ [10, 20, 30].sum < 2 ^ 63) ∧
      stdDev [10, 20, 30] = populationStdDev [10, 20, 30] ∧
      stdDev [10, 20, 30] = F64.sqrt (F64.div (F64.ofInt 200) (F64.ofInt 3)) := by
  have h := stdDev_population [10, 20, 30] (by decide) (by decide)
  refine ⟨⟨by decide, by decide⟩, h.1, ?_⟩
  exact h.2 20 (by decide) (by decide) (by decide) (by decide) (by decide) (by decide)

set_option maxRecDepth 100000 in
set_option exponentiation.threshold 3000 in
/-- C7 fails in its third entry: the standard deviation of
`[10, 20, 30, 0, 0, 0]` that `calculateResults` returns rounds to `11.5470`,
not to `12.0139`. -/
theorem calculateResults_scenario_counterexample :
    ∃ item, (calculateResults [[10, 20, 30], [0, 0, 0]])[2]? = some item ∧
      item.Data = [10, 20, 30, 0, 0, 0] ∧
      F64.round4 item.StdDev = some 115470 ∧ F64.round4 item.StdDev ≠ some 120139 :=
  ⟨⟨[10, 20, 30, 0, 0, 0], F64.fin false 6500386142961636 (-49)⟩,
    by decide, rfl, by decide, by decide⟩

set_option maxRecDepth 100000 in
set_option exponentiation.threshold 3000 in
/-- C7, amended: for the sets `[[10, 20, 30], [0, 0, 0]]`, `calculateResults`
returns exactly three entries: `[10, 20, 30]` with a standard deviation that
rounds to `8.1650`, `[0, 0, 0]` with standard deviation `0.0`, and
`[10, 20, 30, 0, 0, 0]` with a standard deviation that rounds to `11.5470`. -/
theorem calculateResults_scenario :
    calculateResults [[10, 20, 30], [0, 0, 0]] =
      [{ Data := [10, 20, 30], StdDev := F64.fin false 4596467122019239 (-49) },
       { Data := [0, 0, 0], StdDev := F64.zero },
       { Data := [10, 20, 30, 0, 0, 0], StdDev := F64.fin false 6500386142961636 (-49) }] ∧
    F64.round4 (F64.fin false 4596467122019239 (-49)) = some 81650 ∧
    F64.round4 F64.zero = some 0 ∧
    F64.round4 (F64.fin false 6500386142961636 (-49)) = some 115470 := by
  decide

set_option maxRecDepth 100000 in
set_option exponentiation.threshold 3000 in
/-- C9 fails: `[1, 14, 1]` is a permutation of `[1, 1, 14]` and `stdDev`
differs on them in the last bit of the mantissa; so does the union entry of
`calculateResults` when the sets `[1]` and `[1, 14]` are swapped. -/
theorem stdDev_order_counterexample :
    ([1, 14, 1] : List Int).Perm [1, 1, 14] ∧
    stdDev [1, 1, 14] = F64.fin false 6899805978569588 (-50) ∧
    stdDev [1, 14, 1] = F64.fin false 6899805978569587 (-50) ∧
    stdDev [1, 14, 1] ≠ stdDev [1, 1, 14] ∧
    ([[1, 14], [1]] : List (List Int)).Perm [[1], [1, 14]] ∧
    (calculateResults [[1, 14], [1]]).getLast?.map resultItem.StdDev ≠
      (calculateResults [[1], [1, 14]]).getLast?.map resultItem.StdDev := by
  refine ⟨?_, by decide, by decide, by decide, ?_, by decide⟩
  · exact List.Perm.cons 1 (List.Perm.swap 1 14 [])
  · exact List.Perm.swap _ _ []

/-- C9, amended: for a permutation `P` of `S`, `stdDev` uses the same count,
the same `int` sum and the same mean, and adds up the same squared deviations
in another order; whenever this addition is free of rounding error for `S` and
for `P`, `stdDev P` equals `stdDev S`, and so it is whenever the mean of `S` is
an integer and the count, the values, the sum and the sum of squared
deviations are below `2^53`. The same holds for the union entry of
`calculateResults` when the input sets are reordered. -/
theorem stdDev_order (S P : List Int) (sets sets' : List (List Int))
    (hperm : P.Perm S) (hsets : sets'.Perm sets) :
    (P.length = S.length ∧ intSum P = intSum S ∧ meanOf P = meanOf S ∧
      (sqDevs P).Perm (sqDevs S)) ∧
    (accExact S → accExact P → stdDev P = stdDev S) ∧
    (∀ mu : Int, S ≠ [] → S.length < 2 ^ 53 → S.sum = mu * S.length →
      S.sum.natAbs < 2 ^ 53 → (∀ x, x ∈ S → x.natAbs < 2 ^ 53) → sumSqDev S mu < 2 ^ 53 →
      stdDev P = stdDev S) ∧
    (accExact sets.flatten → accExact sets'.flatten →
      (calculateResults sets').getLast?.map resultItem.StdDev =
        (calculateResults sets).getLast?.map resultItem.StdDev) := by
  refine ⟨⟨hperm.length_eq, intSum_perm P S hperm, meanOf_perm P S hperm,
    sqDevs_perm P S hperm⟩, stdDev_perm_exact P S hperm,
    fun mu hne hn hmu hsum hx hV => stdDev_perm_integer_mean P S hperm mu hne hn hmu hsum hx hV,
    ?_⟩
  intro h1 h2
  rw [calculateResults_union, calculateResults_union]
  simp only [Option.map_some']
  rw [stdDev_perm_exact _ _ hsets.flatten h1 h2]

set_option maxRecDepth 100000 in
set_option exponentiation.threshold 3000 in
/-- C9 amended, on `[10, 20, 30]` and `[30, 10, 20]`. -/
theorem stdDev_order_witness :
    (([30, 10, 20] : List Int).Perm [10, 20, 30] ∧
      ([[30], [10, 20]] : List (List Int)).Perm [[10, 20], [30]] ∧
      accExact [10, 20, 30] ∧ accExact [30, 10, 20]) ∧
    stdDev [30, 10, 20] = stdDev [10, 20, 30] ∧
    (calculateResults [[30], [10, 20]]).getLast?.map resultItem.StdDev =
      (calculateResults [[10, 20], [30]]).getLast?.map resultItem.StdDev := by
  have hp : ([30, 10, 20] : List Int).Perm [10, 20, 30] :=
    (List.Perm.swap 10 30 [20]).trans (List.Perm.cons 10 (List.Perm.swap 20 30 []))
  have hs : ([[30], [10, 20]] : List (List Int)).Perm [[10, 20], [30]] := List.Perm.swap _ _ []
  have hS : accExact [10, 20, 30] := by decide
  have hP : accExact [30, 10, 20] := by decide
  have h := stdDev_order [10, 20, 30] [30, 10, 20] [[10, 20], [30]] [[30], [10, 20]] hp hs
  exact ⟨⟨hp, hs, hS, hP⟩, h.2.1 hS hP, h.2.2.2 hS hP⟩

/-! ## The empty request -/

/-- C8 fails when the parent context is cancelled: with no set to fetch and a
parent context cancelled during the call, `getRandomSets` finds
`ctx.Err() != nil` on line 88 and waits on line 89 for an error that nobody
sends; it does not succeed. -/
theorem empty_request_counterexample :
    cfgEmpty.setsCount = 0 ∧
    ∃ s, getRandomSets cfgEmpty [Action.parentCancel, Action.wait, Action.check] = some s ∧
      s.main = MainPc.receiving ∧ s.errorsChannel = [] ∧ ∀ a, step cfgEmpty s a = none := by
  refine ⟨rfl, _, rfl, rfl, rfl, ?_⟩
  intro a
  cases a <;> simp [step, init, cfgEmpty]

/-- C8, amended: with `setsCount == 0`, any `setSize` and a parent context
that is not cancelled, `getRandomSets` launches no goroutine and no call,
cannot block, and returns the empty list of sets with a nil error; and
`calculateResults` of the empty list is exactly one entry, the union entry,
whose `Data` is empty. -/
theorem empty_request (cfg : Config) (acts : List Action) (s : State)
    (h0 : cfg.setsCount = 0) (h : getRandomSets cfg acts = some s) (hp : s.parentDone = false) :
    (s.tasks = [] ∧ step cfg s Action.spawn = none ∧
      ∀ id, step cfg s (Action.fetch id) = none) ∧
    acts.length ≤ 4 ∧
    (s.main.isReturned = false →
      ∃ a, a ≠ Action.parentCancel ∧ (step cfg s a).isSome = true) ∧
    (∀ r e, s.main = MainPc.returned r e → r = some [] ∧ e = none) ∧
    calculateResults [] = [{ Data := [], StdDev := stdDev [] }] ∧
    (calculateResults []).map resultItem.Data = [[]] := by
  have hinv := inv_exec cfg acts s h
  have hall : ∀ j, j < cfg.setsCount → ∃ d, cfg.getRandomsFromRandomOrg j cfg.setSize = Outcome.ok d := by
    intro j hj
    omega
  have htasks : s.tasks = [] := by
    apply List.eq_nil_of_length_eq_zero
    rw [hinv.lenTasks, h0]
  have hq := quiet cfg s hinv hp hall
  refine ⟨⟨htasks, ?_, ?_⟩, ?_, ?_, ?_, rfl, rfl⟩
  · simp only [step]
    split
    · rw [h0]
      simp
    · rfl
  · intro id
    simp [step, htasks]
  · have := exec_length cfg acts s h
    omega
  · intro hr
    apply progress cfg s hinv hr
    intro hm
    have hc := hinv.recvCtx hm
    rw [hq.2.1 hr] at hc
    exact Bool.noConfusion hc
  · intro r e hm
    have he := hq.2.2 r e hm
    subst he
    cases r with
    | none => exact absurd rfl (hinv.retErr none hm)
    | some r0 =>
      obtain ⟨_, hlen, _⟩ := returned_slots cfg s hinv r0 none hm
      rw [h0] at hlen
      rw [List.eq_nil_of_length_eq_zero hlen]
      exact ⟨rfl, rfl⟩

/-- C8 amended, on the complete schedule of the empty request. -/
theorem empty_request_witness :
    (cfgEmpty.setsCount = 0 ∧ getRandomSets cfgEmpty [Action.wait, Action.check] = some finalEmpty ∧
      finalEmpty.parentDone = false) ∧
    finalEmpty.main = MainPc.returned (some []) none ∧
    ((some [] : Option (List (List Int))) = some [] ∧ (none : Option FetchErr) = none) :=
  ⟨⟨rfl, rfl, rfl⟩, rfl,
    (empty_request cfgEmpty [Action.wait, Action.check] finalEmpty rfl rfl rfl).2.2.2.1
      (some []) none rfl⟩

end HelloGo
